import Mathlib

/-!
Verification of the `project-indexer` repository (scripts/index_project.py,
scripts/parsers/{base,python_parser in scripts/parsers, typescript}.py,
scripts/utils/meta.py) against its natural-language specification.

Python strings are shallowly embedded as `List Char`; Python `dict`s as
association lists preserving insertion order; the filesystem as a partial
map from paths to stat results.  All definitions are translations of the
Python source; the rare places where code absent from the repository had
to be modelled from the specification carry a doc comment saying so.
-/

set_option maxRecDepth 2048
set_option linter.constructorNameAsVariable false

/-- Python strings are embedded as lists of characters. -/
abbrev PyStr := List Char

/-- The characters matched by Python's `str.split()` defaults, `str.strip()`
and the regex class `\s` (ASCII range). -/
def isPyWs (c : Char) : Bool :=
  c = ' ' || c = '\t' || c = '\n' || c = '\r' || c = '\x0b' || c = '\x0c'

/-- Characters of the regex class `\w` (ASCII approximation): letters,
digits and the underscore. -/
def isPyWordChar (c : Char) : Bool :=
  c.isAlphanum || c = '_'

/-- Embedding of Python's `s.split(sep)` for a one-character separator:
always returns at least one (possibly empty) piece, keeps empty pieces. -/
def splitOnChar (sep : Char) : PyStr → List PyStr
  | [] => [[]]
  | c :: cs =>
    let r := splitOnChar sep cs
    if c = sep then [] :: r else (c :: r.headD []) :: r.tail

/-- Embedding of Python's `sep.join(pieces)` for a one-character separator. -/
def joinSep (sep : Char) : List PyStr → PyStr
  | [] => []
  | l :: ls =>
    match ls with
    | [] => l
    | _ :: _ => l ++ sep :: joinSep sep ls

/-- `content.split("\n")` as used by `write_chunked_index`. -/
def splitLines : PyStr → List PyStr := splitOnChar '\n'

/-- `"\n".join(lines)` as used by `write_chunked_index`. -/
def joinLines : List PyStr → PyStr := joinSep '\n'

theorem splitOnChar_ne_nil (sep : Char) (s : PyStr) : splitOnChar sep s ≠ [] := by
  cases s with
  | nil => simp [splitOnChar]
  | cons c cs =>
    simp only [splitOnChar]
    by_cases h : c = sep <;> simp [h]

theorem joinSep_splitOnChar (sep : Char) (s : PyStr) :
    joinSep sep (splitOnChar sep s) = s := by
  induction s with
  | nil => rfl
  | cons c cs ih =>
    obtain ⟨l, ls, hls⟩ := List.exists_cons_of_ne_nil (splitOnChar_ne_nil sep cs)
    simp only [splitOnChar]
    by_cases h : c = sep
    · simp only [if_pos h]
      rw [hls]
      rw [hls] at ih
      simp only [joinSep] at ih ⊢
      rw [ih, h]
      simp
    · simp only [if_neg h]
      rw [hls]
      rw [hls] at ih
      cases ls with
      | nil =>
        simp only [joinSep, List.headD, List.tail] at ih ⊢
        simp [ih]
      | cons l2 ls2 =>
        simp only [joinSep, List.headD, List.tail] at ih ⊢
        simp [ih]

theorem joinSep_append (sep : Char) (a b : List PyStr) (ha : a ≠ []) (hb : b ≠ []) :
    joinSep sep (a ++ b) = joinSep sep a ++ sep :: joinSep sep b := by
  induction a with
  | nil => exact absurd rfl ha
  | cons l ls ih =>
    cases ls with
    | nil =>
      cases b with
      | nil => exact absurd rfl hb
      | cons b0 bs => simp [joinSep]
    | cons l2 ls2 =>
      have := ih (by simp)
      cases hx : (l2 :: ls2) ++ b with
      | nil => simp at hx
      | cons y ys =>
        simp only [List.cons_append, joinSep] at this ⊢
        rw [this]
        simp

/-- `MAX_CHARS_PER_FILE = 32000` from scripts/index_project.py. -/
def MAX_CHARS_PER_FILE : Nat := 32000

/-- The line-accumulation loop of `write_chunked_index`
(scripts/index_project.py): greedily packs whole lines into chunks whose
accumulated size (each line counted as `len(line) + 1`) stays within
`MAX_CHARS_PER_FILE`, starting a new chunk when the next line would
overflow a non-empty chunk.  A chunk is a list of lines. -/
def chunkLoop : List PyStr → List PyStr → Nat → List (List PyStr)
  | [], cur, _ => if cur.isEmpty then [] else [cur]
  | line :: rest, cur, size =>
    let lineSize := line.length + 1
    if size + lineSize > MAX_CHARS_PER_FILE ∧ ¬ cur.isEmpty then
      cur :: chunkLoop rest [line] lineSize
    else
      chunkLoop rest (cur ++ [line]) (size + lineSize)

/-- The chunks (as line groups, before the part markers are prepended and
the lines re-joined) that `write_chunked_index` writes for `content`:
a single chunk holding everything when the content fits, else the
greedy line packing. -/
def chunkGroups (content : PyStr) : List (List PyStr) :=
  if content.length ≤ MAX_CHARS_PER_FILE then [splitLines content]
  else chunkLoop (splitLines content) [] 0

/-- The part marker `f"# {base_name} (Part {i})\n\n"` prepended to every
chunk after the first. -/
def partMarker (baseName : PyStr) (i : Nat) : PyStr :=
  ("# ".toList) ++ baseName ++ (" (Part ".toList) ++ Nat.toDigits 10 i ++ (")\n\n".toList)

/-- The final artifact texts of the multi-chunk branch of
`write_chunked_index`: `enumerate(chunks, 1)`, with the part marker
prepended for `i > 1`. -/
def renderArtifacts (baseName : PyStr) : Nat → List (List PyStr) → List PyStr
  | _, [] => []
  | i, g :: gs =>
    (if i > 1 then partMarker baseName i ++ joinLines g else joinLines g) ::
      renderArtifacts baseName (i + 1) gs

/-- `write_chunked_index` from scripts/index_project.py, modelling the
texts written to the artifact files (the filesystem paths themselves are
irrelevant to the claims). -/
def write_chunked_index (content : PyStr) (baseName : PyStr) : List PyStr :=
  if content.length ≤ MAX_CHARS_PER_FILE then [content]
  else renderArtifacts baseName 1 (chunkLoop (splitLines content) [] 0)

/-- Strip the part marker that `write_chunked_index` prepends to every
chunk after the first (this is the reader-side inverse the specification
appeals to when it speaks of concatenating the chunks minus part-marker
prefixes). -/
def stripPartMarkers (baseName : PyStr) : Nat → List PyStr → List PyStr
  | _, [] => []
  | i, a :: arts =>
    (if i > 1 then a.drop (partMarker baseName i).length else a) ::
      stripPartMarkers baseName (i + 1) arts

theorem chunkLoop_join (lines : List PyStr) :
    ∀ cur size, (chunkLoop lines cur size).flatten = cur ++ lines := by
  induction lines with
  | nil =>
    intro cur size
    by_cases h : cur.isEmpty
    · simp [chunkLoop, h, List.isEmpty_iff.mp h]
    · simp [chunkLoop, h]
  | cons line rest ih =>
    intro cur size
    simp only [chunkLoop]
    by_cases h : size + (line.length + 1) > MAX_CHARS_PER_FILE ∧ ¬ cur.isEmpty
    · simp only [if_pos h, List.flatten_cons, ih]
      simp
    · simp only [if_neg h, ih]
      simp

theorem chunkLoop_chunks_ne_nil (lines : List PyStr) :
    ∀ cur size c, c ∈ chunkLoop lines cur size → c ≠ [] := by
  induction lines with
  | nil =>
    intro cur size c hc
    by_cases h : cur.isEmpty
    · simp [chunkLoop, h] at hc
    · simp only [chunkLoop, if_neg h, List.mem_singleton] at hc
      subst hc
      exact fun hnil => h (by simp [hnil])
  | cons line rest ih =>
    intro cur size c hc
    simp only [chunkLoop] at hc
    by_cases h : size + (line.length + 1) > MAX_CHARS_PER_FILE ∧ ¬ cur.isEmpty
    · rw [if_pos h] at hc
      rcases List.mem_cons.mp hc with rfl | hc2
      · exact fun hnil => h.2 (by simp [hnil])
      · exact ih _ _ _ hc2
    · rw [if_neg h] at hc
      exact ih _ _ _ hc

theorem join_ne_nil_of_groups (gs : List (List PyStr)) (hne : gs ≠ [])
    (hall : ∀ g ∈ gs, g ≠ []) : gs.flatten ≠ [] := by
  cases gs with
  | nil => exact absurd rfl hne
  | cons g gs2 =>
    have hg : g ≠ [] := hall g (by simp)
    cases g with
    | nil => exact absurd rfl hg
    | cons c cs => simp

theorem joinLines_map_joinLines (gs : List (List PyStr)) (hall : ∀ g ∈ gs, g ≠ []) :
    joinLines (gs.map joinLines) = joinLines gs.flatten := by
  induction gs with
  | nil => rfl
  | cons g gs2 ih =>
    cases gs2 with
    | nil =>
      simp [joinLines, joinSep]
    | cons g2 gs3 =>
      have hg : g ≠ [] := hall g (by simp)
      have hjoin : (g2 :: gs3).flatten ≠ [] := by
        apply join_ne_nil_of_groups _ (by simp)
        intro x hx
        exact hall x (by simp [hx])
      have ih2 := ih (fun x hx => hall x (by simp [hx]))
      calc joinLines ((g :: g2 :: gs3).map joinLines)
          = joinLines g ++ '\n' :: joinLines ((g2 :: gs3).map joinLines) := rfl
        _ = joinLines g ++ '\n' :: joinLines ((g2 :: gs3).flatten) := by rw [ih2]
        _ = joinLines (g ++ (g2 :: gs3).flatten) :=
            (joinSep_append '\n' g ((g2 :: gs3).flatten) hg hjoin).symm

theorem drop_length_append (a b : PyStr) : (a ++ b).drop a.length = b := by
  induction a with
  | nil => simp
  | cons c cs ih => simp [ih]

theorem stripPartMarkers_render (baseName : PyStr) (gs : List (List PyStr)) :
    ∀ i, stripPartMarkers baseName i (renderArtifacts baseName i gs) = gs.map joinLines := by
  induction gs with
  | nil => intro i; rfl
  | cons g gs2 ih =>
    intro i
    simp only [renderArtifacts, stripPartMarkers, List.map_cons]
    by_cases h : i > 1
    · rw [if_pos h, if_pos h, drop_length_append, ih]
    · rw [if_neg h, if_neg h, ih]

/-- C1 (amended): for every content and base name, joining the artifacts
written by `write_chunked_index` with a newline between consecutive
chunks, after stripping the part marker from every chunk after the
first, reproduces the original content exactly. -/
theorem write_chunked_index_roundTrip (content baseName : PyStr) :
    joinLines (stripPartMarkers baseName 1 (write_chunked_index content baseName)) = content := by
  unfold write_chunked_index
  by_cases h : content.length ≤ MAX_CHARS_PER_FILE
  · rw [if_pos h]
    simp [stripPartMarkers, joinLines, joinSep]
  · rw [if_neg h]
    rw [stripPartMarkers_render]
    rw [joinLines_map_joinLines _ (fun c hc => chunkLoop_chunks_ne_nil _ _ _ c hc)]
    rw [chunkLoop_join]
    simp only [List.nil_append]
    exact joinSep_splitOnChar '\n' content

/-- Step equation for `chunkLoop` on a non-empty line list (useful for
computing concrete chunkings). -/
theorem chunkLoop_cons (line : PyStr) (rest : List PyStr) (cur : List PyStr) (size : Nat) :
    chunkLoop (line :: rest) cur size =
      if size + (line.length + 1) > MAX_CHARS_PER_FILE ∧ ¬ cur.isEmpty
      then cur :: chunkLoop rest [line] (line.length + 1)
      else chunkLoop rest (cur ++ [line]) (size + (line.length + 1)) := by
  simp only [chunkLoop]

/-- The fixed `"---"` file-transition separator line emitted by
`generate_directory_index` between per-file sections. -/
def sectionSepLine : PyStr := ['-', '-', '-']

/-- A chunking respects the `"---"`-delimited sections when at every
boundary between consecutive chunks a separator line adjoins the
boundary: two adjacent non-separator lines always stay in one chunk. -/
def respectsSections (groups : List (List PyStr)) : Prop :=
  List.Chain'
    (fun c1 c2 => c1.getLast? = some sectionSepLine ∨ c2.head? = some sectionSepLine) groups

/-- Claim C1 as stated: round-trip reconstruction and no section split
across two chunks. -/
def claimC1 (content baseName : PyStr) : Prop :=
  joinLines (stripPartMarkers baseName 1 (write_chunked_index content baseName)) = content
  ∧ respectsSections (chunkGroups content)

/-- A 16500-character line of `a`s (one half of an oversized section). -/
def exLineA : PyStr := List.replicate 16500 'a'

/-- A 16500-character line of `b`s (the other half of the section). -/
def exLineB : PyStr := List.replicate 16500 'b'

/-- A 33005-character content consisting of one section of two long lines
followed by the `"---"` separator; it exceeds `MAX_CHARS_PER_FILE`, so the
writer splits it, and the only place it can split is inside the section. -/
def exC1 : PyStr := exLineA ++ '\n' :: (exLineB ++ '\n' :: sectionSepLine)

theorem splitOnChar_line_append (l rest : PyStr) (h : ∀ c ∈ l, c ≠ '\n') :
    splitLines (l ++ '\n' :: rest) = l :: splitLines rest := by
  induction l with
  | nil => simp [splitLines, splitOnChar]
  | cons c cs ih =>
    have hc : c ≠ '\n' := h c (by simp)
    have ih2 := ih (fun x hx => h x (by simp [hx]))
    simp only [splitLines, splitOnChar, List.cons_append, List.append_eq] at ih2 ⊢
    rw [if_neg hc, ih2]
    simp

theorem exLineA_length : exLineA.length = 16500 := by
  simp only [exLineA, List.length_replicate]

theorem exLineB_length : exLineB.length = 16500 := by
  simp only [exLineB, List.length_replicate]

theorem exC1_length : exC1.length = 33005 := by
  unfold exC1
  simp only [List.length_append, List.length_cons, exLineA_length, exLineB_length]
  rfl

theorem exLineA_no_newline : ∀ c ∈ exLineA, c ≠ '\n' := by
  intro c hc
  simp only [exLineA] at hc
  rw [List.eq_of_mem_replicate hc]
  decide

theorem exLineB_no_newline : ∀ c ∈ exLineB, c ≠ '\n' := by
  intro c hc
  simp only [exLineB] at hc
  rw [List.eq_of_mem_replicate hc]
  decide

theorem exC1_splitLines : splitLines exC1 = [exLineA, exLineB, sectionSepLine] := by
  unfold exC1
  rw [splitOnChar_line_append _ _ exLineA_no_newline]
  rw [splitOnChar_line_append _ _ exLineB_no_newline]
  have : splitLines sectionSepLine = [sectionSepLine] := by decide
  rw [this]

theorem exC1_chunkGroups : chunkGroups exC1 = [[exLineA], [exLineB, sectionSepLine]] := by
  have hlenA := exLineA_length
  have hlenB := exLineB_length
  have hlenS : sectionSepLine.length = 3 := by decide
  unfold chunkGroups
  rw [if_neg (by rw [exC1_length]; decide)]
  rw [exC1_splitLines]
  rw [chunkLoop_cons, if_neg (by simp)]
  simp only [List.nil_append, Nat.zero_add]
  rw [chunkLoop_cons, if_pos ⟨by rw [hlenA, hlenB]; decide, by simp⟩]
  rw [chunkLoop_cons, if_neg (by rw [hlenB, hlenS]; intro hx; exact absurd hx.1 (by decide))]
  simp [chunkLoop]

/-- C1 counterexample: on a 33005-character report made of one section of
two 16500-character lines followed by the `"---"` separator, the chunk
writer splits the section across its two chunks, so the claim (round
trip AND no section split) is false as stated. -/
theorem C1_counterexample : ¬ claimC1 exC1 ("dir".toList) := by
  unfold claimC1
  intro hc
  obtain ⟨-, hresp⟩ := hc
  rw [exC1_chunkGroups] at hresp
  unfold respectsSections at hresp
  have hrel := (List.chain'_cons.mp hresp).1
  have hB3 : sectionSepLine.length = 3 := by decide
  rcases hrel with h1 | h2
  · have hEq : exLineA = sectionSepLine := by simpa using h1
    have hL := congrArg List.length hEq
    rw [exLineA_length, hB3] at hL
    exact absurd hL (by decide)
  · have hEq : exLineB = sectionSepLine := by simpa using h2
    have hL := congrArg List.length hEq
    rw [exLineB_length, hB3] at hL
    exact absurd hL (by decide)

/-- The size bound a single written chunk satisfies: its text (before any
part marker) is within the limit, unless it consists of exactly one line
that alone exceeds the limit. -/
def chunkSizeOk (c : List PyStr) : Prop :=
  (joinLines c).length ≤ MAX_CHARS_PER_FILE ∨
    ∃ l, c = [l] ∧ MAX_CHARS_PER_FILE < l.length

/-- All chunks of a chunking satisfy `chunkSizeOk`. -/
def allChunksOk (gs : List (List PyStr)) : Prop := ∀ c ∈ gs, chunkSizeOk c

/-- The accumulated size `current_size` tracked by the splitting loop:
each line counts as its length plus one (for the newline). -/
def sumSize (c : List PyStr) : Nat := (c.map (fun l => l.length + 1)).sum

theorem sumSize_append_single (c : List PyStr) (l : PyStr) :
    sumSize (c ++ [l]) = sumSize c + (l.length + 1) := by
  simp [sumSize]

theorem joinLines_length (c : List PyStr) (h : c ≠ []) :
    (joinLines c).length + 1 = sumSize c := by
  induction c with
  | nil => exact absurd rfl h
  | cons l ls ih =>
    cases ls with
    | nil => simp [joinLines, joinSep, sumSize]
    | cons l2 ls2 =>
      have ih2 := ih (by simp)
      show (joinSep '\n' (l :: l2 :: ls2)).length + 1 = sumSize (l :: l2 :: ls2)
      have : joinSep '\n' (l :: l2 :: ls2) = l ++ '\n' :: joinSep '\n' (l2 :: ls2) := rfl
      rw [this]
      simp only [List.length_append, List.length_cons]
      have : sumSize (l :: l2 :: ls2) = (l.length + 1) + sumSize (l2 :: ls2) := by
        simp [sumSize]
      rw [this, ← ih2]
      show l.length + ((joinLines (l2 :: ls2)).length + 1) + 1 =
        l.length + 1 + ((joinLines (l2 :: ls2)).length + 1)
      omega

theorem chunk_ok_of_inv (cur : List PyStr)
    (h : sumSize cur ≤ MAX_CHARS_PER_FILE + 1 ∨ ∃ l, cur = [l]) (hne : cur ≠ []) :
    chunkSizeOk cur := by
  rcases h with h | ⟨l, rfl⟩
  · left
    have := joinLines_length cur hne
    omega
  · by_cases hl : l.length ≤ MAX_CHARS_PER_FILE
    · left
      simpa [joinLines, joinSep] using hl
    · right
      exact ⟨l, rfl, by omega⟩

theorem chunkLoop_ok (lines : List PyStr) :
    ∀ cur size, size = sumSize cur →
      (cur = [] ∨ sumSize cur ≤ MAX_CHARS_PER_FILE + 1 ∨ ∃ l, cur = [l]) →
      allChunksOk (chunkLoop lines cur size) := by
  induction lines with
  | nil =>
    intro cur size hsz hinv c hc
    by_cases h : cur.isEmpty
    · simp [chunkLoop, h] at hc
    · simp only [chunkLoop, if_neg h, List.mem_singleton] at hc
      subst hc
      have hne : c ≠ [] := fun hnil => h (by simp [hnil])
      rcases hinv with rfl | hinv
      · exact absurd rfl hne
      · exact chunk_ok_of_inv c hinv hne
  | cons line rest ih =>
    intro cur size hsz hinv c hc
    rw [chunkLoop_cons] at hc
    by_cases h : size + (line.length + 1) > MAX_CHARS_PER_FILE ∧ ¬ cur.isEmpty
    · rw [if_pos h] at hc
      rcases List.mem_cons.mp hc with rfl | hc2
      · have hne : c ≠ [] := fun hnil => h.2 (by simp [hnil])
        rcases hinv with rfl | hinv
        · exact absurd rfl hne
        · exact chunk_ok_of_inv c hinv hne
      · exact ih [line] (line.length + 1) (by simp [sumSize]) (Or.inr (Or.inr ⟨line, rfl⟩)) c hc2
    · rw [if_neg h] at hc
      refine ih (cur ++ [line]) (size + (line.length + 1))
        (by rw [sumSize_append_single, hsz]) ?_ c hc
      by_cases hcur : cur = []
      · subst hcur
        exact Or.inr (Or.inr ⟨line, rfl⟩)
      · have h2 : ¬ size + (line.length + 1) > MAX_CHARS_PER_FILE := by
          intro hgt
          exact h ⟨hgt, fun he => hcur (List.isEmpty_iff.mp he)⟩
        refine Or.inr (Or.inl ?_)
        rw [sumSize_append_single, ← hsz]
        omega

/-- C10: for content longer than the 32000-character limit, every chunk
produced by the splitting loop of `write_chunked_index` (measured before
the part marker is prepended) either fits within the limit or consists
of exactly one line whose own length exceeds the limit. -/
theorem chunk_size_invariant (content : PyStr)
    (h : MAX_CHARS_PER_FILE < content.length) :
    allChunksOk (chunkGroups content) := by
  unfold chunkGroups
  rw [if_neg (by omega)]
  exact chunkLoop_ok (splitLines content) [] 0 rfl (Or.inl rfl)

/-- Witness for C10 at the concrete 33005-character content `exC1`. -/
theorem chunk_size_invariant_witness :
    MAX_CHARS_PER_FILE < exC1.length ∧ allChunksOk (chunkGroups exC1) :=
  ⟨by rw [exC1_length]; decide,
   chunk_size_invariant exC1 (by rw [exC1_length]; decide)⟩

/-- The (st_mtime, st_size) pair returned by a stat call; the modification
time is modelled as an integer since the code only compares it for
equality. -/
structure PyStat where
  mtime : Int
  size : Int
deriving DecidableEq

/-- The filesystem as seen by `MetaManager`: a partial map from path
strings to stat results (`none` = the path does not exist). -/
abbrev FileSystem := String → Option PyStat

/-- One entry of `MetaManager.data.files` (scripts/utils/meta.py): the
dict written by `update_file_record`. -/
structure FileRecord where
  mtime : Int
  size : Int
  indexed_in : String
  checksum : Option String
deriving DecidableEq

/-- Python dict lookup `d.get(k)` on an insertion-ordered association
list. -/
def dictGet {β : Type} (l : List (String × β)) (k : String) : Option β :=
  (l.find? (fun kv => decide (kv.1 = k))).map (·.2)

/-- Python dict assignment `d[k] = v`: replaces in place, or appends a
new key. -/
def dictSet {β : Type} : List (String × β) → String → β → List (String × β)
  | [], k, v => [(k, v)]
  | (k0, v0) :: rest, k, v =>
    if k0 = k then (k, v) :: rest else (k0, v0) :: dictSet rest k v

/-- Python dict deletion `del d[k]` (guarded by `k in d`, so deleting an
absent key is a no-op overall). -/
def dictRemove {β : Type} (l : List (String × β)) (k : String) : List (String × β) :=
  l.filter (fun kv => decide (kv.1 ≠ k))

/-- The `files` table of the persisted metadata. -/
abbrev MetaFiles := List (String × FileRecord)

/-- `MetaManager.should_reindex` (scripts/utils/meta.py): `False` when the
path does not exist on disk; `True` when no record is stored; otherwise
`True` exactly when the stored (mtime, size) fingerprint differs from
the current stat. -/
def should_reindex (fs : FileSystem) (files : MetaFiles) (path : String) : Bool :=
  match fs path with
  | none => false
  | some st =>
    match dictGet files path with
    | none => true
    | some r => decide (r.mtime ≠ st.mtime) || decide (r.size ≠ st.size)

/-- `MetaManager.update_file_record` (scripts/utils/meta.py): a no-op when
the file does not exist, else stores the current fingerprint together
with the artifact path and optional checksum. -/
def update_file_record (fs : FileSystem) (files : MetaFiles)
    (path index_file_path : String) (checksum : Option String) : MetaFiles :=
  match fs path with
  | none => files
  | some st => dictSet files path ⟨st.mtime, st.size, index_file_path, checksum⟩

theorem dictGet_dictSet_self {β : Type} (l : List (String × β)) (k : String) (v : β) :
    dictGet (dictSet l k v) k = some v := by
  induction l with
  | nil => simp [dictSet, dictGet]
  | cons kv rest ih =>
    obtain ⟨k0, v0⟩ := kv
    by_cases h : k0 = k
    · simp [dictSet, h, dictGet]
    · simp only [dictSet, if_neg h, dictGet] at ih ⊢
      rw [List.find?_cons_of_neg _ (by simp [h])]
      exact ih

/-- C3: `should_reindex` returns true exactly when the file exists on
disk and either no record is stored for the path or the stored
fingerprint (mtime, size) differs from the file's current fingerprint;
in particular it is false whenever the file does not exist, whatever is
stored. -/
theorem should_reindex_spec (fs : FileSystem) (files : MetaFiles) (path : String) :
    should_reindex fs files path = true ↔
      ∃ st, fs path = some st ∧
        (dictGet files path = none ∨
          ∃ r, dictGet files path = some r ∧ (r.mtime ≠ st.mtime ∨ r.size ≠ st.size)) := by
  unfold should_reindex
  cases hfs : fs path with
  | none => simp
  | some st =>
    cases hr : dictGet files path with
    | none => simp
    | some r => simp

/-- C4: after `update_file_record(path, artifact)` on an existing file,
`should_reindex(path)` (evaluated against any later filesystem state in
which the file still exists) is true exactly when the file's modification
time or size has changed since the update; immediately after the update
(same filesystem) it is therefore false. -/
theorem update_then_should_reindex (fs fs2 : FileSystem) (files : MetaFiles)
    (path artifact : String) (st st2 : PyStat)
    (h1 : fs path = some st) (h2 : fs2 path = some st2) :
    (should_reindex fs2 (update_file_record fs files path artifact none) path = true ↔
      (st2.mtime ≠ st.mtime ∨ st2.size ≠ st.size)) := by
  unfold update_file_record
  rw [h1]
  unfold should_reindex
  rw [h2, dictGet_dictSet_self]
  simp only [Bool.or_eq_true, decide_eq_true_eq]
  constructor
  · rintro (h | h)
    · exact Or.inl (fun he => h (by rw [he]))
    · exact Or.inr (fun he => h (by rw [he]))
  · rintro (h | h)
    · exact Or.inl (fun he => h (by rw [he]))
    · exact Or.inr (fun he => h (by rw [he]))

/-- A two-entry filesystem state for the C4 witness: the file exists with
fingerprint (10, 5). -/
def exFS1 : FileSystem := fun p => if p = "src/a.py" then some ⟨10, 5⟩ else none

/-- The same file after its modification time changed to 11. -/
def exFS2 : FileSystem := fun p => if p = "src/a.py" then some ⟨11, 5⟩ else none

/-- Witness for C4 at a concrete path, record store and filesystem pair. -/
theorem update_then_should_reindex_witness :
    exFS1 "src/a.py" = some ⟨10, 5⟩ ∧ exFS2 "src/a.py" = some ⟨11, 5⟩ ∧
      (should_reindex exFS2 (update_file_record exFS1 [] "src/a.py" "root.md" none)
          "src/a.py" = true ↔
        ((11 : Int) ≠ 10 ∨ (5 : Int) ≠ 5)) :=
  ⟨by simp [exFS1], by simp [exFS2],
   update_then_should_reindex exFS1 exFS2 [] "src/a.py" "root.md" ⟨10, 5⟩ ⟨11, 5⟩
     (by simp [exFS1]) (by simp [exFS2])⟩

/-- One persisted (file, symbol) search row, as described by the
specification's data model. -/
structure SearchEntry where
  path : String
  symbolName : String
  kind : String
  context : String
deriving DecidableEq

/-- `MetaManager.remove_record` (scripts/utils/meta.py): delete the path's
record if present. -/
def remove_record (files : MetaFiles) (path : String) : MetaFiles :=
  dictRemove files path

/-- `MetaManager.get_deleted_files` (scripts/utils/meta.py): every
previously recorded path absent from the set of currently existing
files, in stored order. -/
def get_deleted_files (files : MetaFiles) (current_files : List String) : List String :=
  (files.map (·.1)).filter (fun f => !(current_files.contains f))

/-- `MetaManager.cleanup_deleted` (scripts/utils/meta.py): remove the
record of every deleted file. -/
def cleanup_deleted (files : MetaFiles) (deleted : List String) : MetaFiles :=
  deleted.foldl remove_record files

/-- Modelled from the spec: the persisted `SearchEntry` table and its
deletion during cleanup are not present under src/ (the JSON-backed
`MetaManager` stores only `FileRecord`s); per the specification,
`cleanup(paths)` removes both the `FileRecord` and all associated
`SearchEntry` rows for each path.  The record half is the source's
`cleanup_deleted`; the entry half filters out every row whose path is
among the deleted paths. -/
def cleanup_deleted_full (files : MetaFiles) (entries : List SearchEntry)
    (deleted : List String) : MetaFiles × List SearchEntry :=
  (cleanup_deleted files deleted, entries.filter (fun e => !(deleted.contains e.path)))

theorem dictGet_isSome_iff {β : Type} (l : List (String × β)) (k : String) :
    (dictGet l k).isSome = true ↔ k ∈ l.map Prod.fst := by
  induction l with
  | nil => simp [dictGet]
  | cons kv rest ih =>
    obtain ⟨k0, v0⟩ := kv
    by_cases h : k0 = k
    · subst h
      simp [dictGet]
    · simp only [dictGet] at ih ⊢
      rw [List.find?_cons_of_neg _ (by simp [h])]
      simp [ih, Ne.symm h]

theorem dictGet_dictRemove_self {β : Type} (l : List (String × β)) (k : String) :
    dictGet (dictRemove l k) k = none := by
  induction l with
  | nil => rfl
  | cons kv rest ih =>
    obtain ⟨k0, v0⟩ := kv
    simp only [dictRemove, List.filter_cons] at ih ⊢
    by_cases h : k0 = k
    · rw [if_neg (by simp [h])]
      exact ih
    · rw [if_pos (by simp [h])]
      simp only [dictGet] at ih ⊢
      rw [List.find?_cons_of_neg _ (by simp [h])]
      exact ih

theorem dictGet_dictRemove_none {β : Type} (l : List (String × β)) (k p : String)
    (h : dictGet l p = none) : dictGet (dictRemove l k) p = none := by
  induction l with
  | nil => rfl
  | cons kv rest ih =>
    obtain ⟨k0, v0⟩ := kv
    by_cases hp : k0 = p
    · exfalso
      subst hp
      simp [dictGet, List.find?_cons_of_pos] at h
    · have hrest : dictGet rest p = none := by
        simp only [dictGet] at h
        rw [List.find?_cons_of_neg _ (by simp [hp])] at h
        exact h
      have ih2 := ih hrest
      simp only [dictRemove, List.filter_cons] at ih2 ⊢
      by_cases hk : k0 = k
      · rw [if_neg (by simp [hk])]
        exact ih2
      · rw [if_pos (by simp [hk])]
        simp only [dictGet] at ih2 ⊢
        rw [List.find?_cons_of_neg _ (by simp [hp])]
        exact ih2

theorem cleanup_preserves_none (deleted : List String) :
    ∀ files p, dictGet files p = none → dictGet (cleanup_deleted files deleted) p = none := by
  induction deleted with
  | nil => intro files p h; simpa [cleanup_deleted] using h
  | cons d rest ih =>
    intro files p h
    simp only [cleanup_deleted, List.foldl_cons]
    exact ih (remove_record files d) p (dictGet_dictRemove_none files d p h)

theorem cleanup_removes (deleted : List String) :
    ∀ files p, p ∈ deleted → dictGet (cleanup_deleted files deleted) p = none := by
  induction deleted with
  | nil => intro files p h; simp at h
  | cons d rest ih =>
    intro files p h
    simp only [cleanup_deleted, List.foldl_cons]
    rcases List.mem_cons.mp h with rfl | hrest
    · exact cleanup_preserves_none rest (remove_record files p) p
        (dictGet_dictRemove_self files p)
    · exact ih (remove_record files d) p hrest

/-- C8: `get_deleted_files` returns exactly the recorded paths absent
from the current path set, and cleaning them up (with the spec-modelled
`SearchEntry` half) leaves neither a `FileRecord` nor any `SearchEntry`
row for any deleted path. -/
theorem deleted_files_cleanup (files : MetaFiles) (entries : List SearchEntry)
    (current_files : List String) :
    (∀ p, p ∈ get_deleted_files files current_files ↔
        ((dictGet files p).isSome = true ∧ p ∉ current_files))
    ∧ (∀ p ∈ get_deleted_files files current_files,
        dictGet (cleanup_deleted_full files entries (get_deleted_files files current_files)).1
          p = none)
    ∧ (∀ e ∈ (cleanup_deleted_full files entries (get_deleted_files files current_files)).2,
        e.path ∉ get_deleted_files files current_files) := by
  refine ⟨?_, ?_, ?_⟩
  · intro p
    simp [get_deleted_files, List.mem_filter, dictGet_isSome_iff]
  · intro p hp
    exact cleanup_removes _ files p hp
  · intro e he
    simp only [cleanup_deleted_full, List.mem_filter] at he
    simpa using he.2

/-- ASCII lowercasing of one character (`str.lower()` restricted to the
ASCII range relevant for file extensions). -/
def asciiLower (c : Char) : Char :=
  if 'A' ≤ c ∧ c ≤ 'Z' then Char.ofNat (c.toNat + 32) else c

/-- `str.lower()` on an ASCII string. -/
def lowerStr (s : PyStr) : PyStr := s.map asciiLower

/-- `Path(file_path).name`: the part of the path after the last `/`. -/
def pathLastComponent (p : PyStr) : PyStr :=
  (p.reverse.takeWhile (fun c => c ≠ '/')).reverse

/-- `Path(file_path).suffix`: the extension of the final component, empty
when the name has no dot, starts with its only dot (hidden files), or
ends with the dot. -/
def pathSuffix (p : PyStr) : PyStr :=
  let nm := pathLastComponent p
  let revExt := nm.reverse.takeWhile (fun c => c ≠ '.')
  if revExt.length = nm.length then []
  else if revExt.length = 0 then []
  else if revExt.length + 1 = nm.length then []
  else '.' :: revExt.reverse

/-- A registered parser as the registry sees it: its supported extension
list and display language name (scripts/parsers/base.py). -/
structure RegisteredParser where
  extensions : List PyStr
  languageName : PyStr
deriving DecidableEq

/-- `BaseParser.can_parse` (scripts/parsers/base.py): the lowercased path
suffix is among the parser's extensions. -/
def can_parse (pr : RegisteredParser) (path : PyStr) : Bool :=
  decide (lowerStr (pathSuffix path) ∈ pr.extensions)

/-- The registry lookup of `ParserRegistry` (scripts/parsers/base.py):
the first registered parser whose `can_parse` accepts the path, else
`None`. -/
def getParser (registry : List RegisteredParser) (path : PyStr) : Option RegisteredParser :=
  registry.find? (fun pr => can_parse pr path)

/-- The TypeScript/JavaScript parser's registration data
(scripts/parsers/typescript.py). -/
def tsRegistered : RegisteredParser :=
  ⟨[".ts".toList, ".tsx".toList, ".js".toList, ".jsx".toList, ".mjs".toList, ".cjs".toList],
   "TypeScript/JavaScript".toList⟩

/-- The Python parser's registration data (scripts/parsers, python file). -/
def pyRegistered : RegisteredParser :=
  ⟨[".py".toList, ".pyi".toList], "Python".toList⟩

/-- The process-wide registry in registration order: scripts/index_project.py
registers the TypeScript parser first, then the Python parser. -/
def registeredParsers : List RegisteredParser := [tsRegistered, pyRegistered]

/-- C9: `getParser` returns `some p` exactly when `p` is the
first-registered parser accepting the path's (lowercased) suffix, and
`none` exactly when no registered parser accepts it, so unregistered
extensions are excluded from indexing entirely. -/
theorem get_parser_spec (registry : List RegisteredParser) (path : PyStr) :
    (∀ p, getParser registry path = some p ↔
        ∃ pre post, registry = pre ++ p :: post ∧ can_parse p path = true ∧
          ∀ q ∈ pre, can_parse q path = false)
    ∧ (getParser registry path = none ↔ ∀ q ∈ registry, can_parse q path = false) := by
  constructor
  · intro p
    induction registry with
    | nil =>
      simp [getParser]
    | cons r rest ih =>
      by_cases hr : can_parse r path = true
      · rw [show getParser (r :: rest) path = some r from
          List.find?_cons_of_pos _ hr]
        constructor
        · intro hsome
          obtain rfl : r = p := by simpa using hsome
          exact ⟨[], rest, rfl, hr, by simp⟩
        · rintro ⟨pre, post, heq, hp, hpre⟩
          cases pre with
          | nil =>
            obtain rfl : r = p := by simpa using congrArg (fun l => l.head?) heq
            rfl
          | cons q pre2 =>
            have hq : q = r := by simpa using (congrArg (fun l => l.head?) heq).symm
            have := hpre q (by simp)
            rw [hq, hr] at this
            exact absurd this (by simp)
      · have hfneg : getParser (r :: rest) path = getParser rest path :=
          List.find?_cons_of_neg _ (by simpa using hr)
        rw [hfneg]
        constructor
        · intro h
          obtain ⟨pre, post, heq, hp, hpre⟩ := ih.mp h
          refine ⟨r :: pre, post, by rw [heq]; rfl, hp, ?_⟩
          intro q hq
          rcases List.mem_cons.mp hq with rfl | hq2
          · simpa using hr
          · exact hpre q hq2
        · rintro ⟨pre, post, heq, hp, hpre⟩
          cases pre with
          | nil =>
            obtain rfl : r = p := by simpa using congrArg (fun l => l.head?) heq
            exact absurd hp hr
          | cons q pre2 =>
            have hq : q = r := by simpa using (congrArg (fun l => l.head?) heq).symm
            have htail : rest = pre2 ++ p :: post := by simpa using congrArg List.tail heq
            exact ih.mpr ⟨pre2, post, htail, hp, fun q2 hq2 => hpre q2 (by simp [hq2])⟩
  · simp [getParser, List.find?_eq_none]

/-- Match a literal at the head of the input, returning the remainder. -/
def dropLit : PyStr → PyStr → Option PyStr
  | [], s => some s
  | _ :: _, [] => none
  | c :: cs, d :: ds => if d = c then dropLit cs ds else none

/-- Match the greedy `\s+` (at least one whitespace character). -/
def ws1 : PyStr → Option PyStr
  | [] => none
  | c :: cs => if isPyWs c then some (cs.dropWhile isPyWs) else none

/-- Match the greedy `(\w+)` capture (at least one word character):
returns the captured word and the remainder. -/
def word1 : PyStr → Option (PyStr × PyStr)
  | [] => none
  | c :: cs =>
    if isPyWordChar c then some (c :: cs.takeWhile isPyWordChar, cs.dropWhile isPyWordChar)
    else none

/-- Whether the scan position right after a match of length
`s.length - rest.length` sits at the start of a line (the consumed text
ended with a newline); needed to evaluate `^` under `re.MULTILINE`. -/
def afterNlFlag (s rest : PyStr) : Bool :=
  decide ((s.drop (s.length - rest.length - 1)).head? = some '\n')

/-- The scan loop of `re.finditer`: at each position try the matcher
(which receives whether the position starts a line, for `^` patterns);
on a match emit the capture with its start offset and resume after the
matched span, else advance one character.  Fuelled so that it reduces in
the kernel; the fuel is always at least the input length.  -/
def reFindIterF {α : Type} (m : PyStr → Bool → Option (α × PyStr)) :
    Nat → PyStr → Bool → Nat → List (Nat × α)
  | 0, _, _, _ => []
  | _ + 1, [], _, _ => []
  | fuel + 1, c :: cs, atStart, pos =>
    match m (c :: cs) atStart with
    | some (a, rest) =>
      if rest.length < (c :: cs).length then
        (pos, a) :: reFindIterF m fuel rest (afterNlFlag (c :: cs) rest)
          (pos + ((c :: cs).length - rest.length))
      else
        (pos, a) :: reFindIterF m fuel cs (decide (c = '\n')) (pos + 1)
    | none => reFindIterF m fuel cs (decide (c = '\n')) (pos + 1)

/-- `re.finditer pattern s` for the matcher `m` embedding `pattern`:
captures together with their match start offsets, scanning from offset 0
(which starts a line). -/
def reFindIter {α : Type} (m : PyStr → Bool → Option (α × PyStr)) (s : PyStr) :
    List (Nat × α) :=
  reFindIterF m s.length s true 0

theorem reFindIterF_prop {α : Type} (m : PyStr → Bool → Option (α × PyStr)) (P : α → Prop)
    (hm : ∀ s st a rest, m s st = some (a, rest) → P a) :
    ∀ fuel s st pos x, x ∈ reFindIterF m fuel s st pos → P x.2 := by
  intro fuel
  induction fuel with
  | zero => intro s st pos x hx; simp [reFindIterF] at hx
  | succ n ih =>
    intro s st pos x hx
    cases s with
    | nil => simp [reFindIterF] at hx
    | cons c cs =>
      cases hm2 : m (c :: cs) st with
      | none =>
        simp only [reFindIterF, hm2] at hx
        exact ih _ _ _ _ hx
      | some ar =>
        obtain ⟨a, rest⟩ := ar
        simp only [reFindIterF, hm2] at hx
        by_cases hlen : rest.length < (c :: cs).length
        · rw [if_pos hlen] at hx
          rcases List.mem_cons.mp hx with rfl | hx2
          · exact hm _ _ _ _ hm2
          · exact ih _ _ _ _ hx2
        · rw [if_neg hlen] at hx
          rcases List.mem_cons.mp hx with rfl | hx2
          · exact hm _ _ _ _ hm2
          · exact ih _ _ _ _ hx2

theorem reFindIter_prop {α : Type} (m : PyStr → Bool → Option (α × PyStr)) (P : α → Prop)
    (hm : ∀ s st a rest, m s st = some (a, rest) → P a) :
    ∀ s x, x ∈ reFindIter m s → P x.2 := by
  intro s x hx
  exact reFindIterF_prop m P hm _ _ _ _ x hx

theorem reFindIterF_pos_ge {α : Type} (m : PyStr → Bool → Option (α × PyStr)) :
    ∀ fuel s st pos x, x ∈ reFindIterF m fuel s st pos → pos ≤ x.1 := by
  intro fuel
  induction fuel with
  | zero => intro s st pos x hx; simp [reFindIterF] at hx
  | succ n ih =>
    intro s st pos x hx
    cases s with
    | nil => simp [reFindIterF] at hx
    | cons c cs =>
      cases hm2 : m (c :: cs) st with
      | none =>
        simp only [reFindIterF, hm2] at hx
        have := ih _ _ _ _ hx
        omega
      | some ar =>
        obtain ⟨a, rest⟩ := ar
        simp only [reFindIterF, hm2] at hx
        by_cases hlen : rest.length < (c :: cs).length
        · rw [if_pos hlen] at hx
          rcases List.mem_cons.mp hx with rfl | hx2
          · exact Nat.le_refl _
          · have := ih _ _ _ _ hx2
            omega
        · rw [if_neg hlen] at hx
          rcases List.mem_cons.mp hx with rfl | hx2
          · exact Nat.le_refl _
          · have := ih _ _ _ _ hx2
            omega

theorem reFindIterF_sorted {α : Type} (m : PyStr → Bool → Option (α × PyStr)) :
    ∀ fuel s st pos, List.Pairwise (fun x y => x.1 < y.1) (reFindIterF m fuel s st pos) := by
  intro fuel
  induction fuel with
  | zero => intro s st pos; simp [reFindIterF]
  | succ n ih =>
    intro s st pos
    cases s with
    | nil => simp [reFindIterF]
    | cons c cs =>
      cases hm2 : m (c :: cs) st with
      | none =>
        simp only [reFindIterF, hm2]
        exact ih _ _ _
      | some ar =>
        obtain ⟨a, rest⟩ := ar
        simp only [reFindIterF, hm2]
        by_cases hlen : rest.length < (c :: cs).length
        · rw [if_pos hlen]
          refine List.Pairwise.cons ?_ (ih _ _ _)
          intro y hy
          have h2 := reFindIterF_pos_ge m _ _ _ _ y hy
          simp only [List.length_cons] at h2 hlen
          show pos < y.1
          omega
        · rw [if_neg hlen]
          refine List.Pairwise.cons ?_ (ih _ _ _)
          intro y hy
          have h2 := reFindIterF_pos_ge m _ _ _ _ y hy
          show pos < y.1
          omega

theorem reFindIter_sorted {α : Type} (m : PyStr → Bool → Option (α × PyStr)) (s : PyStr) :
    List.Pairwise (fun x y => x.1 < y.1) (reFindIter m s) :=
  reFindIterF_sorted m _ _ _ _

/-- Lexicographic comparison of Python strings by code point (`<` on
`str`), used through `sorted`. -/
def strLt : PyStr → PyStr → Bool
  | [], [] => false
  | [], _ :: _ => true
  | _ :: _, [] => false
  | a :: as2, b :: bs2 =>
    if a.toNat < b.toNat then true
    else if b.toNat < a.toNat then false
    else strLt as2 bs2

theorem strLt_irrefl : ∀ a, strLt a a = false := by
  intro a
  induction a with
  | nil => rfl
  | cons c cs ih => simp [strLt, ih]

theorem strLt_trans : ∀ a b c, strLt a b = true → strLt b c = true → strLt a c = true := by
  intro a
  induction a with
  | nil =>
    intro b c hab hbc
    cases b with
    | nil => simp [strLt] at hab
    | cons y ys =>
      cases c with
      | nil => simp [strLt] at hbc
      | cons z zs => simp [strLt]
  | cons x xs ih =>
    intro b c hab hbc
    cases b with
    | nil => simp [strLt] at hab
    | cons y ys =>
      cases c with
      | nil => simp [strLt] at hbc
      | cons z zs =>
        simp only [strLt] at hab hbc ⊢
        rcases Nat.lt_trichotomy x.toNat y.toNat with h1 | h1 | h1
        · rcases Nat.lt_trichotomy y.toNat z.toNat with h2 | h2 | h2
          · rw [if_pos (by omega)]
          · rw [if_pos (by omega)]
          · rw [if_neg (by omega), if_pos h2] at hbc
            exact absurd hbc (by simp)
        · rcases Nat.lt_trichotomy y.toNat z.toNat with h2 | h2 | h2
          · rw [if_pos (by omega)]
          · rw [if_neg (by omega), if_neg (by omega)] at hab
            rw [if_neg (by omega), if_neg (by omega)] at hbc
            rw [if_neg (by omega), if_neg (by omega)]
            exact ih ys zs hab hbc
          · rw [if_neg (by omega), if_pos h2] at hbc
            exact absurd hbc (by simp)
        · rw [if_neg (by omega), if_pos h1] at hab
          exact absurd hab (by simp)

/-- One step of building Python's `sorted(set(...))`: insert into a
strictly sorted list, dropping duplicates. -/
def sortedInsert (x : PyStr) : List PyStr → List PyStr
  | [] => [x]
  | y :: ys =>
    if strLt x y then x :: y :: ys
    else if strLt y x then y :: sortedInsert x ys
    else y :: ys

/-- Python's `sorted(set(l))`: the distinct elements of `l` in strictly
increasing lexicographic order. -/
def sortedDedup (l : List PyStr) : List PyStr :=
  l.foldl (fun acc x => sortedInsert x acc) []

theorem mem_sortedInsert (x : PyStr) : ∀ l y, y ∈ sortedInsert x l → y = x ∨ y ∈ l := by
  intro l
  induction l with
  | nil => intro y hy; simpa [sortedInsert] using hy
  | cons z zs ih =>
    intro y hy
    simp only [sortedInsert] at hy
    by_cases h1 : strLt x z = true
    · rw [if_pos h1] at hy
      rcases List.mem_cons.mp hy with rfl | hy2
      · exact Or.inl rfl
      · exact Or.inr hy2
    · rw [if_neg h1] at hy
      by_cases h2 : strLt z x = true
      · rw [if_pos h2] at hy
        rcases List.mem_cons.mp hy with rfl | hy2
        · exact Or.inr (by simp)
        · rcases ih y hy2 with rfl | hy3
          · exact Or.inl rfl
          · exact Or.inr (by simp [hy3])
      · rw [if_neg h2] at hy
        exact Or.inr hy

theorem sortedInsert_sorted (x : PyStr) :
    ∀ l, List.Pairwise (fun a b => strLt a b = true) l →
      List.Pairwise (fun a b => strLt a b = true) (sortedInsert x l) := by
  intro l
  induction l with
  | nil => intro h; simp [sortedInsert]
  | cons z zs ih =>
    intro h
    have hz := List.pairwise_cons.mp h
    simp only [sortedInsert]
    by_cases h1 : strLt x z = true
    · rw [if_pos h1]
      refine List.Pairwise.cons ?_ h
      intro y hy
      rcases List.mem_cons.mp hy with rfl | hy2
      · exact h1
      · exact strLt_trans x z y h1 (hz.1 y hy2)
    · rw [if_neg h1]
      by_cases h2 : strLt z x = true
      · rw [if_pos h2]
        refine List.Pairwise.cons ?_ (ih hz.2)
        intro y hy
        rcases mem_sortedInsert x zs y hy with rfl | hy2
        · exact h2
        · exact hz.1 y hy2
      · rw [if_neg h2]
        exact h

theorem sortedDedup_sorted_aux (l : List PyStr) :
    ∀ acc, List.Pairwise (fun a b => strLt a b = true) acc →
      List.Pairwise (fun a b => strLt a b = true)
        (l.foldl (fun acc x => sortedInsert x acc) acc) := by
  induction l with
  | nil => intro acc h; simpa using h
  | cons x xs ih =>
    intro acc h
    simp only [List.foldl_cons]
    exact ih _ (sortedInsert_sorted x acc h)

theorem sortedDedup_sorted (l : List PyStr) :
    List.Pairwise (fun a b => strLt a b = true) (sortedDedup l) :=
  sortedDedup_sorted_aux l [] (by simp)

theorem mem_sortedDedup_aux (l : List PyStr) :
    ∀ acc y, y ∈ l.foldl (fun acc x => sortedInsert x acc) acc → y ∈ acc ∨ y ∈ l := by
  induction l with
  | nil => intro acc y h; simpa using h
  | cons x xs ih =>
    intro acc y h
    simp only [List.foldl_cons] at h
    rcases ih _ y h with h2 | h2
    · rcases mem_sortedInsert x acc y h2 with rfl | h3
      · exact Or.inr (by simp)
      · exact Or.inl h3
    · exact Or.inr (by simp [h2])

theorem mem_sortedDedup (l : List PyStr) (y : PyStr) (h : y ∈ sortedDedup l) : y ∈ l := by
  rcases mem_sortedDedup_aux l [] y h with h2 | h2
  · simp at h2
  · exact h2

theorem sortedDedup_nodup (l : List PyStr) : (sortedDedup l).Nodup :=
  (sortedDedup_sorted l).imp (fun {a b} hlt heq => by
    subst heq
    rw [strLt_irrefl] at hlt
    exact absurd hlt (by simp))

/-- Python's `str.strip()`: drop whitespace from both ends. -/
def pyStrip (s : PyStr) : PyStr :=
  ((s.dropWhile isPyWs).reverse.dropWhile isPyWs).reverse

/-- Python's `str.startswith(pre)`. -/
def startsWithStr (pre s : PyStr) : Bool :=
  decide (s.take pre.length = pre)

/-- Python's `sep.join(pieces)` for a multi-character separator. -/
def joinStrSep (sep : PyStr) : List PyStr → PyStr
  | [] => []
  | l :: ls =>
    match ls with
    | [] => l
    | _ :: _ => l ++ sep ++ joinStrSep sep ls

/-- The opening curly brace (written via its code point to keep brace
characters out of string literals). -/
def lbraceChar : Char := Char.ofNat 123

/-- The closing curly brace. -/
def rbraceChar : Char := Char.ofNat 125

def commaSp : PyStr := [',', ' ']

def kwImport : PyStr := ['i', 'm', 'p', 'o', 'r', 't']

def kwFrom : PyStr := ['f', 'r', 'o', 'm']

def kwAsync : PyStr := ['a', 's', 'y', 'n', 'c']

def kwDef : PyStr := ['d', 'e', 'f']

def kwClass : PyStr := ['c', 'l', 'a', 's', 's']

def kwArrow : PyStr := ['-', '>']

def kwExport : PyStr := ['e', 'x', 'p', 'o', 'r', 't']

def kwFunction : PyStr := ['f', 'u', 'n', 'c', 't', 'i', 'o', 'n']

def kwInterface : PyStr := ['i', 'n', 't', 'e', 'r', 'f', 'a', 'c', 'e']

def kwTypeWord : PyStr := ['t', 'y', 'p', 'e']

def kwConst : PyStr := ['c', 'o', 'n', 's', 't']

def kwLet : PyStr := ['l', 'e', 't']

def kwVar : PyStr := ['v', 'a', 'r']

def kwEnum : PyStr := ['e', 'n', 'u', 'm']

def kwDefault : PyStr := ['d', 'e', 'f', 'a', 'u', 'l', 't']

def kwRequire : PyStr := ['r', 'e', 'q', 'u', 'i', 'r', 'e']

def kwExtends : PyStr := ['e', 'x', 't', 'e', 'n', 'd', 's']

def kwImplements : PyStr := ['i', 'm', 'p', 'l', 'e', 'm', 'e', 'n', 't', 's']

def kwAbstract : PyStr := ['a', 'b', 's', 't', 'r', 'a', 'c', 't']

/-- The normalized extraction result for one source file
(`FileSignature` in scripts/parsers/base.py); `description` defaults to
`None` and is never set by either parser. -/
structure FileSignature where
  exports : List PyStr
  imports : List PyStr
  description : Option PyStr
deriving DecidableEq

/-- The `(?:\.\w+)*` tail of the `from` pattern: greedily consume dotted
word segments, stopping (without consuming the dot) when no word
follows. -/
def dottedTailF : Nat → PyStr → PyStr
  | 0, s => s
  | fuel + 1, s =>
    match s with
    | '.' :: rest =>
      match word1 rest with
      | some (_, r2) => dottedTailF fuel r2
      | none => s
    | _ => s

def dottedTail (s : PyStr) : PyStr := dottedTailF s.length s

/-- The pattern `^import\s+(\w+)` under `re.MULTILINE`
(PythonParser, scripts/parsers): anchored at a line start, literal
`import`, whitespace (which may span lines), then a word capture. -/
def pyImportMatch (s : PyStr) (atStart : Bool) : Option (PyStr × PyStr) :=
  if atStart then
    (dropLit kwImport s).bind fun r1 =>
      (ws1 r1).bind fun r2 =>
        word1 r2
  else none

/-- The pattern `^from\s+(\w+)(?:\.\w+)*\s+import` under `re.MULTILINE`
(PythonParser, scripts/parsers): note that `\w+` cannot match a dot, so a
relative import (`from . import x`, `from .mod import x`) never
matches. -/
def pyFromMatch (s : PyStr) (atStart : Bool) : Option (PyStr × PyStr) :=
  if atStart then
    (dropLit kwFrom s).bind fun r1 =>
      (ws1 r1).bind fun r2 =>
        (word1 r2).bind fun mr =>
          (ws1 (dottedTail mr.2)).bind fun r5 =>
            (dropLit kwImport r5).map fun r6 => (mr.1, r6)
  else none

/-- `PythonParser._extract_imports`: both finditer passes feed one set,
the `from` pass skips a bare `"."` (dead code, since `\w+` cannot match
it), and the set is returned sorted. -/
def pyExtractImports (content : PyStr) : List PyStr :=
  sortedDedup
    ((reFindIter pyImportMatch content).map (·.2) ++
      ((reFindIter pyFromMatch content).map (·.2)).filter (fun m => decide (m ≠ ['.'])))

/-- `PythonParser._extract_param_name`: strip, keep `*args`/`**kwargs`
up to a colon, else the leading `\w+` (empty when the regex does not
match). -/
def pyExtractParamName (param : PyStr) : PyStr :=
  let p := pyStrip param
  match p with
  | [] => []
  | '*' :: _ => pyStrip (p.takeWhile (fun c => c ≠ ':'))
  | c :: cs => if isPyWordChar c then c :: cs.takeWhile isPyWordChar else []

/-- The character loop of `PythonParser._simplify_params`: track bracket
depth (`([{` up, `)]}` down, possibly below zero as in Python), split on
top-level commas, keep only non-empty extracted names. -/
def pySimplifyParamsLoop : PyStr → PyStr → Int → List PyStr → List PyStr
  | [], current, _, acc =>
    if (pyStrip current).isEmpty then acc
    else
      let nm := pyExtractParamName current
      if nm.isEmpty then acc else acc ++ [nm]
  | c :: cs, current, depth, acc =>
    if c = '(' ∨ c = '[' ∨ c = lbraceChar then
      pySimplifyParamsLoop cs (current ++ [c]) (depth + 1) acc
    else if c = ')' ∨ c = ']' ∨ c = rbraceChar then
      pySimplifyParamsLoop cs (current ++ [c]) (depth - 1) acc
    else if c = ',' ∧ depth = 0 then
      let nm := pyExtractParamName current
      pySimplifyParamsLoop cs [] depth (if nm.isEmpty then acc else acc ++ [nm])
    else
      pySimplifyParamsLoop cs (current ++ [c]) depth acc

/-- `PythonParser._simplify_params`. -/
def pySimplifyParams (params : PyStr) : PyStr :=
  if (pyStrip params).isEmpty then []
  else joinStrSep commaSp (pySimplifyParamsLoop params [] 0 [])

/-- `PythonParser._simplify_bases`: split on commas, strip, keep the
leading `\w+` of each part that has one. -/
def pySimplifyBases (bases : PyStr) : PyStr :=
  joinStrSep commaSp
    (((splitOnChar ',' bases).map pyStrip).filterMap (fun b =>
      match b with
      | c :: cs => if isPyWordChar c then some (c :: cs.takeWhile isPyWordChar) else none
      | [] => none))

/-- The optional return annotation `(?:\s*->\s*([^\n:]+))?` followed by
the mandatory `:` of the function pattern; mirrors the regex backtracking
into the whitespace run after `->` when the annotation body would
otherwise be empty.  Returns `none` when the whole pattern fails, `some
ret` when it matches with optional captured annotation `ret`. -/
def matchRetAnnot (r : PyStr) : Option (Option PyStr) :=
  let attempt : Option PyStr :=
    match dropLit kwArrow (r.dropWhile isPyWs) with
    | some t2 =>
      let run := t2.takeWhile isPyWs
      let t3 := t2.dropWhile isPyWs
      let body := t3.takeWhile (fun c => !(c = ':' || c = '\n'))
      if body.isEmpty then
        match t3.head? with
        | some ':' =>
          match run.getLast? with
          | some c => if c ≠ '\n' then some [c] else none
          | none => none
        | _ => none
      else
        match t3.dropWhile (fun c => !(c = ':' || c = '\n')) with
        | ':' :: _ => some body
        | _ => none
    | none => none
  match attempt with
  | some body => some (some body)
  | none =>
    match r with
    | ':' :: _ => some none
    | _ => none

/-- The per-line function/method pattern
`^(\s*)(async\s+)?def\s+(\w+)\s*\(([^)]*)\)(?:\s*->\s*([^\n:]+))?:` of
`PythonParser._extract_definitions`: yields (indent width, async flag,
name, raw parameter text, optional return annotation). -/
def parenPart (r4 : PyStr) : Option (PyStr × PyStr) :=
  match r4.dropWhile isPyWs with
  | '(' :: r6 =>
    match r6.dropWhile (fun c => c ≠ ')') with
    | ')' :: r7 => some (r6.takeWhile (fun c => c ≠ ')'), r7)
    | _ => none
  | _ => none

def matchFuncLine (line : PyStr) : Option (Nat × Bool × PyStr × PyStr × Option PyStr) :=
  let ind := line.takeWhile isPyWs
  let r := line.dropWhile isPyWs
  let ar : Bool × PyStr :=
    match dropLit kwAsync r with
    | some ra =>
      match ws1 ra with
      | some rb => (true, rb)
      | none => (false, r)
    | none => (false, r)
  (dropLit kwDef ar.2).bind fun r2 =>
    (ws1 r2).bind fun r3 =>
      (word1 r3).bind fun nr =>
        (parenPart nr.2).bind fun pr =>
          (matchRetAnnot pr.2).map fun ret => (ind.length, ar.1, nr.1, pr.1, ret)

/-- The per-line class pattern `^(\s*)class\s+(\w+)(?:\(([^)]*)\))?:` of
`PythonParser._extract_definitions`: yields (indent width, name,
optional raw base list). -/
def matchClassLine (line : PyStr) : Option (Nat × PyStr × Option PyStr) :=
  let ind := line.takeWhile isPyWs
  let r := line.dropWhile isPyWs
  match dropLit kwClass r with
  | some r1 =>
    match ws1 r1 with
    | some r2 =>
      match word1 r2 with
      | some (name, r3) =>
        match r3 with
        | '(' :: r4 =>
          let bases := r4.takeWhile (fun c => c ≠ ')')
          match r4.dropWhile (fun c => c ≠ ')') with
          | ')' :: r5 =>
            match r5 with
            | ':' :: _ => some (ind.length, name, some bases)
            | _ => none
          | _ => none
        | ':' :: _ => some (ind.length, name, none)
        | _ => none
      | none => none
    | none => none
  | none => none

/-- The exported class signature string: `class {name}({bases})` when a
non-empty base list was captured, else `class {name}`. -/
def classSig (name : PyStr) (bases : Option PyStr) : PyStr :=
  match bases with
  | some b =>
    if b.isEmpty then kwClass ++ ' ' :: name
    else kwClass ++ ' ' :: name ++ '(' :: pySimplifyBases b ++ [')']
  | none => kwClass ++ ' ' :: name

/-- The exported function signature string:
`[async ]def {name}({params})[ -> {ret}]`. -/
def funcSig (isAsync : Bool) (name params : PyStr) (ret : Option PyStr) : PyStr :=
  let base :=
    (if isAsync then kwAsync ++ [' '] else []) ++ kwDef ++ ' ' :: name ++
      '(' :: pySimplifyParams params ++ [')']
  match ret with
  | some rt => base ++ ' ' :: kwArrow ++ ' ' :: pyStrip rt
  | none => base

/-- One iteration of the line loop of
`PythonParser._extract_definitions`: skip blank/comment lines (class
state unchanged), else reset the enclosing-class state when dedent
reaches it, then match a class line (recording a new top-level class) or
a function line (filtering single-underscore non-dunder names, emitting
methods with a two-space display indent).  Returns the optionally
emitted signature and the new class state. -/
def pyLineStep (line : PyStr) (cls : Option (PyStr × Nat)) :
    Option PyStr × Option (PyStr × Nat) :=
  let stripped := line.dropWhile isPyWs
  if stripped.isEmpty ∨ stripped.head? = some '#' then (none, cls)
  else
    let indent := line.length - stripped.length
    let cls1 : Option (PyStr × Nat) :=
      match cls with
      | some (nm, ci) => if indent ≤ ci then none else some (nm, ci)
      | none => none
    match matchClassLine line with
    | some (indLen, name, bases) =>
      if indLen = 0 then (some (classSig name bases), some (name, indLen))
      else (none, cls1)
    | none =>
      match matchFuncLine line with
      | some (indLen, isAsync, name, params, ret) =>
        if startsWithStr ['_'] name && !(startsWithStr ['_', '_'] name) then (none, cls1)
        else
          let sig := funcSig isAsync name params ret
          match cls1 with
          | some (_, ci) =>
            if indLen > ci then (some (' ' :: ' ' :: sig), cls1)
            else if indLen = 0 then (some sig, cls1)
            else (none, cls1)
          | none =>
            if indLen = 0 then (some sig, cls1) else (none, cls1)
      | none => (none, cls1)

/-- The line loop of `PythonParser._extract_definitions`, instrumented
with the `enumerate` line index so that order of appearance is
visible. -/
def pyDefsLoop : Nat → List PyStr → Option (PyStr × Nat) → List (Nat × PyStr)
  | _, [], _ => []
  | i, line :: rest, cls =>
    match pyLineStep line cls with
    | (some sig, cls2) => (i, sig) :: pyDefsLoop (i + 1) rest cls2
    | (none, cls2) => pyDefsLoop (i + 1) rest cls2

/-- `PythonParser._extract_definitions` with line indices. -/
def pyExtractDefsP (content : PyStr) : List (Nat × PyStr) :=
  pyDefsLoop 0 (splitLines content) none

/-- `PythonParser._extract_definitions`. -/
def pyExtractDefs (content : PyStr) : List PyStr :=
  (pyExtractDefsP content).map (·.2)

/-- `PythonParser.parse`: imports then definitions, `description` left
`None`. -/
def pyParse (content : PyStr) : FileSignature :=
  ⟨pyExtractDefs content, pyExtractImports content, none⟩

/-- The suffix `from\s+['\"]([^'\"]+)['\"]` of the TypeScript import
pattern: literal `from`, whitespace, a quote (single or double — the
regex classes allow them mismatched), a non-empty quote-free capture,
and a closing quote. -/
def tsFromTail (rest : PyStr) : Option (PyStr × PyStr) :=
  match dropLit kwFrom rest with
  | some r1 =>
    match ws1 r1 with
    | some r2 =>
      match r2 with
      | q :: r3 =>
        if q = '\'' ∨ q = '"' then
          let cap := r3.takeWhile (fun c => !(c = '\'' || c = '"'))
          if cap.isEmpty then none
          else
            match r3.dropWhile (fun c => !(c = '\'' || c = '"')) with
            | _ :: r4 => some (cap, r4)
            | [] => none
        else none
      | [] => none
    | none => none
  | none => none

/-- Whether the text between `import` and a candidate `from` can be split
as `\s+` then `.*?` (no newline) then `\s+`: it must start and end with
whitespace, and apart from its leading and trailing whitespace runs it
must contain no newline (a newline can only be eaten by the `\s+`
parts, never by `.`). -/
def regionOkB (region : PyStr) : Bool :=
  match region.head? with
  | none => false
  | some c =>
    isPyWs c &&
      (let core := pyStrip region
       if core.isEmpty then decide (region.length ≥ 2)
       else
         (match region.getLast? with
          | some d => isPyWs d
          | none => false) && !(core.contains '\n'))

/-- The lazy `.*?` of `import\s+.*?\s+from\s+['\"]([^'\"]+)['\"]`: scan
for the earliest position where the `from ...` tail matches with an
admissible region before it (regex lazy matching finds the earliest such
completion). -/
def tsFromSearch : PyStr → PyStr → Option (PyStr × PyStr)
  | _, [] => none
  | region, c :: cs =>
    if regionOkB region then
      match tsFromTail (c :: cs) with
      | some res => some res
      | none => tsFromSearch (region ++ [c]) cs
    else tsFromSearch (region ++ [c]) cs

/-- The pattern `import\s+.*?\s+from\s+['\"]([^'\"]+)['\"]`
(`TypeScriptParser._extract_imports`, first pass). -/
def tsImportFromMatch (s : PyStr) (_ : Bool) : Option (PyStr × PyStr) :=
  match dropLit kwImport s with
  | some r0 => tsFromSearch [] r0
  | none => none

/-- The pattern `require\s*\(\s*['\"]([^'\"]+)['\"]\s*\)`
(`TypeScriptParser._extract_imports`, second pass). -/
def tsRequireMatch (s : PyStr) (_ : Bool) : Option (PyStr × PyStr) :=
  match dropLit kwRequire s with
  | some r0 =>
    match r0.dropWhile isPyWs with
    | '(' :: r1 =>
      match r1.dropWhile isPyWs with
      | q :: r2 =>
        if q = '\'' ∨ q = '"' then
          let cap := r2.takeWhile (fun c => !(c = '\'' || c = '"'))
          if cap.isEmpty then none
          else
            match r2.dropWhile (fun c => !(c = '\'' || c = '"')) with
            | _ :: r3 =>
              match r3.dropWhile isPyWs with
              | ')' :: r4 => some (cap, r4)
              | _ => none
            | [] => none
        else none
      | [] => none
    | _ => none
  | none => none

/-- `TypeScriptParser._extract_imports`: both passes feed one set, each
match is kept only when the module does not start with a dot (relative
import), and the set is returned sorted. -/
def tsExtractImports (content : PyStr) : List PyStr :=
  sortedDedup
    (((reFindIter tsImportFromMatch content).map (·.2)).filter
        (fun m => !(startsWithStr ['.'] m)) ++
      ((reFindIter tsRequireMatch content).map (·.2)).filter
        (fun m => !(startsWithStr ['.'] m)))

/-- `TypeScriptParser._extract_param_name`: destructuring patterns keep
the text before the colon (or the whole pattern), otherwise the leading
`\w+`, falling back to the whole stripped parameter. -/
def tsExtractParamName (param : PyStr) : PyStr :=
  let p := pyStrip param
  match p with
  | [] => []
  | c :: cs =>
    if c = lbraceChar ∨ c = '[' then
      if p.contains ':' then pyStrip (p.takeWhile (fun c2 => c2 ≠ ':'))
      else p
    else
      if isPyWordChar c then c :: cs.takeWhile isPyWordChar
      else p

/-- The character loop of `TypeScriptParser._simplify_params`: bracket
depth over `(<{` and `)>}`, split on top-level commas, appending every
extracted name (even empty ones, unlike the Python parser). -/
def tsSimplifyParamsLoop : PyStr → PyStr → Int → List PyStr → List PyStr
  | [], current, _, acc =>
    if (pyStrip current).isEmpty then acc
    else acc ++ [tsExtractParamName current]
  | c :: cs, current, depth, acc =>
    if c = '(' ∨ c = '<' ∨ c = lbraceChar then
      tsSimplifyParamsLoop cs (current ++ [c]) (depth + 1) acc
    else if c = ')' ∨ c = '>' ∨ c = rbraceChar then
      tsSimplifyParamsLoop cs (current ++ [c]) (depth - 1) acc
    else if c = ',' ∧ depth = 0 then
      tsSimplifyParamsLoop cs [] depth (acc ++ [tsExtractParamName current])
    else
      tsSimplifyParamsLoop cs (current ++ [c]) depth acc

/-- `TypeScriptParser._simplify_params`. -/
def tsSimplifyParams (params : PyStr) : PyStr :=
  if (pyStrip params).isEmpty then []
  else joinStrSep commaSp (tsSimplifyParamsLoop params [] 0 [])

/-- Consume a `<[^>]*>` generic parameter block at the head of the
input, returning the block (brackets included) and the remainder;
`none` when there is no complete block. -/
def angleOpt (s : PyStr) : Option (PyStr × PyStr) :=
  match s with
  | '<' :: r =>
    let inner := r.takeWhile (fun c => c ≠ '>')
    match r.dropWhile (fun c => c ≠ '>') with
    | '>' :: r2 => some ('<' :: inner ++ ['>'], r2)
    | _ => none
  | _ => none

/-- The trailing optional return-type group `(?:\s*:\s*([^\n{]+))?` of
the TypeScript function pattern (nothing follows it, so a failed body
after the colon backtracks into the whitespace run and captures its last
newline-free character).  Returns the optional capture and the scan
resume point. -/
def tsRetAnnot (r : PyStr) : Option PyStr × PyStr :=
  match r.dropWhile isPyWs with
  | ':' :: t2 =>
    let run := t2.takeWhile isPyWs
    let t3 := t2.dropWhile isPyWs
    let body := t3.takeWhile (fun c => !(c = '\n' || c = lbraceChar))
    if body.isEmpty then
      let revRun := run.reverse
      let m := (revRun.takeWhile (fun c => c = '\n')).length
      match revRun.drop m with
      | c :: _ => (some [c], List.replicate m '\n' ++ t3)
      | [] => (none, r)
    else (some body, t3.drop body.length)
  | _ => (none, r)

/-- The pattern
`export\s+(async\s+)?function\s+(\w+)\s*(<[^>]*>)?\s*\(([^)]*)\)(?:\s*:\s*([^\n{]+))?`
(`TypeScriptParser._extract_exports`): yields (async flag, name,
generics text, raw parameters, optional return type). -/
def tsFuncMatch (s : PyStr) (_ : Bool) :
    Option ((Bool × PyStr × PyStr × PyStr × Option PyStr) × PyStr) :=
  match dropLit kwExport s with
  | some r0 =>
    match ws1 r0 with
    | some r1 =>
      let ar : Bool × PyStr :=
        match dropLit kwAsync r1 with
        | some ra =>
          match ws1 ra with
          | some rb => (true, rb)
          | none => (false, r1)
        | none => (false, r1)
      match dropLit kwFunction ar.2 with
      | some r2 =>
        match ws1 r2 with
        | some r3 =>
          match word1 r3 with
          | some (name, r4) =>
            let t1 := r4.dropWhile isPyWs
            match (match t1 with
                   | '<' :: _ => angleOpt t1
                   | _ => some ([], t1) : Option (PyStr × PyStr)) with
            | some (generics, t2) =>
              match t2.dropWhile isPyWs with
              | '(' :: r6 =>
                let params := r6.takeWhile (fun c => c ≠ ')')
                match r6.dropWhile (fun c => c ≠ ')') with
                | ')' :: r7 =>
                  match tsRetAnnot r7 with
                  | (ret, r8) => some ((ar.1, name, generics, params, ret), r8)
                | _ => none
              | _ => none
            | none => none
          | none => none
        | none => none
      | none => none
    | none => none
  | none => none

/-- The span of the unused trailing group `(?:\s+implements\s+([^\n{]+))?`
of the class pattern: consume it when it matches (including the
whitespace-backtracking corner), else return the input unchanged. -/
def tsImplementsSpan (t : PyStr) : PyStr :=
  match ws1 t with
  | some tw =>
    match dropLit kwImplements tw with
    | some t2 =>
      let run := t2.takeWhile isPyWs
      let t3 := t2.dropWhile isPyWs
      if run.isEmpty then t
      else
        let body := t3.takeWhile (fun c => !(c = '\n' || c = lbraceChar))
        if body.isEmpty then
          let revRun := run.reverse
          let m := (revRun.takeWhile (fun c => c = '\n')).length
          if run.length - m ≥ 2 then List.replicate m '\n' ++ t3 else t
        else t3.drop body.length
    | none => t
  | none => t

/-- The pattern
`export\s+(?:abstract\s+)?class\s+(\w+)(?:<[^>]*>)?(?:\s+extends\s+(\w+))?(?:\s+implements\s+([^\n{]+))?`
(`TypeScriptParser._extract_exports`): yields (name, optional base
class). -/
def tsClassMatch (s : PyStr) (_ : Bool) : Option ((PyStr × Option PyStr) × PyStr) :=
  match dropLit kwExport s with
  | some r0 =>
    match ws1 r0 with
    | some r1 =>
      let r1b :=
        match dropLit kwAbstract r1 with
        | some ra =>
          match ws1 ra with
          | some rb => rb
          | none => r1
        | none => r1
      match dropLit kwClass r1b with
      | some r2 =>
        match ws1 r2 with
        | some r3 =>
          match word1 r3 with
          | some (name, r4) =>
            let t1 :=
              match r4 with
              | '<' :: _ =>
                match angleOpt r4 with
                | some (_, t2) => t2
                | none => r4
              | _ => r4
            match (match ws1 t1 with
                   | some tw =>
                     match dropLit kwExtends tw with
                     | some te =>
                       match ws1 te with
                       | some te2 =>
                         match word1 te2 with
                         | some (ext, t5) => some (ext, t5)
                         | none => none
                       | none => none
                     | none => none
                   | none => none : Option (PyStr × PyStr)) with
            | some (ext, t5) => some ((name, some ext), tsImplementsSpan t5)
            | none => some ((name, none), tsImplementsSpan t1)
          | none => none
        | none => none
      | none => none
    | none => none
  | none => none

/-- The pattern `export\s+interface\s+(\w+)(?:<[^>]*>)?`. -/
def tsInterfaceMatch (s : PyStr) (_ : Bool) : Option (PyStr × PyStr) :=
  match dropLit kwExport s with
  | some r0 =>
    match ws1 r0 with
    | some r1 =>
      match dropLit kwInterface r1 with
      | some r2 =>
        match ws1 r2 with
        | some r3 =>
          match word1 r3 with
          | some (name, r4) =>
            match r4 with
            | '<' :: _ =>
              match angleOpt r4 with
              | some (_, t2) => some (name, t2)
              | none => some (name, r4)
            | _ => some (name, r4)
          | none => none
        | none => none
      | none => none
    | none => none
  | none => none

/-- The pattern `export\s+type\s+(\w+)(?:<[^>]*>)?\s*=`. -/
def tsTypeMatch (s : PyStr) (_ : Bool) : Option (PyStr × PyStr) :=
  match dropLit kwExport s with
  | some r0 =>
    match ws1 r0 with
    | some r1 =>
      match dropLit kwTypeWord r1 with
      | some r2 =>
        match ws1 r2 with
        | some r3 =>
          match word1 r3 with
          | some (name, r4) =>
            let t1 :=
              match r4 with
              | '<' :: _ =>
                match angleOpt r4 with
                | some (_, t2) => t2
                | none => r4
              | _ => r4
            match t1.dropWhile isPyWs with
            | '=' :: r5 => some (name, r5)
            | _ => none
          | none => none
        | none => none
      | none => none
    | none => none
  | none => none

/-- Descending search for the variable type-hint body: the greedy
`([^=\n]+)` gives characters back until `\s*=` matches after it. -/
def tsVarBodySearch : PyStr → PyStr → Option (PyStr × PyStr)
  | [], _ => none
  | c :: bodyRev2, rest =>
    match rest.dropWhile isPyWs with
    | '=' :: r2 => some ((c :: bodyRev2).reverse, r2)
    | _ => tsVarBodySearch bodyRev2 (c :: rest)

/-- The optional `(?:\s*:\s*([^=\n]+))?` followed by the mandatory `\s*=`
of the variable pattern, with the regex's backtracking (body shrinking,
and body drawn from the whitespace run when the `=` follows it
directly). -/
def tsVarAnnot (r : PyStr) : Option (Option PyStr × PyStr) :=
  let withHint : Option (PyStr × PyStr) :=
    match r.dropWhile isPyWs with
    | ':' :: t2 =>
      let run := t2.takeWhile isPyWs
      let t3 := t2.dropWhile isPyWs
      let bodyMax := t3.takeWhile (fun c => !(c = '=' || c = '\n'))
      match tsVarBodySearch bodyMax.reverse (t3.drop bodyMax.length) with
      | some (body, rest) => some (body, rest)
      | none =>
        match t3 with
        | '=' :: rest2 =>
          let revRun := run.reverse
          let m := (revRun.takeWhile (fun c => c = '\n')).length
          match revRun.drop m with
          | c :: _ => some ([c], rest2)
          | [] => none
        | _ => none
    | _ => none
  match withHint with
  | some (body, rest) => some (some body, rest)
  | none =>
    match r.dropWhile isPyWs with
    | '=' :: rest => some (none, rest)
    | _ => none

/-- The pattern `export\s+(const|let|var)\s+(\w+)(?:\s*:\s*([^=\n]+))?\s*=`
(`TypeScriptParser._extract_exports`): yields (declaration keyword,
name, optional type hint). -/
def tsVarMatch (s : PyStr) (_ : Bool) : Option ((PyStr × PyStr × Option PyStr) × PyStr) :=
  match dropLit kwExport s with
  | some r0 =>
    match ws1 r0 with
    | some r1 =>
      match (match dropLit kwConst r1 with
             | some rc => some (kwConst, rc)
             | none =>
               match dropLit kwLet r1 with
               | some rl => some (kwLet, rl)
               | none =>
                 match dropLit kwVar r1 with
                 | some rv => some (kwVar, rv)
                 | none => none : Option (PyStr × PyStr)) with
      | some (kind, r2) =>
        match ws1 r2 with
        | some r3 =>
          match word1 r3 with
          | some (name, r4) =>
            match tsVarAnnot r4 with
            | some (hint, r5) => some ((kind, name, hint), r5)
            | none => none
          | none => none
        | none => none
      | none => none
    | none => none
  | none => none

/-- The pattern `export\s+enum\s+(\w+)`. -/
def tsEnumMatch (s : PyStr) (_ : Bool) : Option (PyStr × PyStr) :=
  match dropLit kwExport s with
  | some r0 =>
    match ws1 r0 with
    | some r1 =>
      match dropLit kwEnum r1 with
      | some r2 =>
        match ws1 r2 with
        | some r3 =>
          match word1 r3 with
          | some (name, r4) => some (name, r4)
          | none => none
        | none => none
      | none => none
    | none => none
  | none => none

/-- `re.search`: the first match's capture, if any. -/
def searchFirst {α : Type} (m : PyStr → Bool → Option (α × PyStr)) (s : PyStr) : Option α :=
  ((reFindIter m s).map (·.2)).head?

/-- The pattern `export\s+default\s+` (existence only). -/
def tsDefaultMatch (s : PyStr) (_ : Bool) : Option (Unit × PyStr) :=
  match dropLit kwExport s with
  | some r0 =>
    match ws1 r0 with
    | some r1 =>
      match dropLit kwDefault r1 with
      | some r2 =>
        match ws1 r2 with
        | some r3 => some ((), r3)
        | none => none
      | none => none
    | none => none
  | none => none

/-- The pattern `export\s+default\s+class\s+(\w+)`. -/
def tsDefaultClassMatch (s : PyStr) (_ : Bool) : Option (PyStr × PyStr) :=
  match tsDefaultMatch s false with
  | some (_, r3) =>
    match dropLit kwClass r3 with
    | some r4 =>
      match ws1 r4 with
      | some r5 =>
        match word1 r5 with
        | some (name, r6) => some (name, r6)
        | none => none
      | none => none
    | none => none
  | none => none

/-- The pattern `export\s+default\s+(?:async\s+)?function\s+(\w+)`. -/
def tsDefaultFuncMatch (s : PyStr) (_ : Bool) : Option (PyStr × PyStr) :=
  match tsDefaultMatch s false with
  | some (_, r3) =>
    let r3b :=
      match dropLit kwAsync r3 with
      | some ra =>
        match ws1 ra with
        | some rb => rb
        | none => r3
      | none => r3
    match dropLit kwFunction r3b with
    | some r4 =>
      match ws1 r4 with
      | some r5 =>
        match word1 r5 with
        | some (name, r6) => some (name, r6)
        | none => none
      | none => none
    | none => none
  | none => none

/-- The exported TypeScript function signature:
`f"{is_async.strip()}function {name}{generics}({params})[: {ret}]".strip()`
(note the source has no space between the stripped async marker and
`function`). -/
def tsFuncSig (f : Bool × PyStr × PyStr × PyStr × Option PyStr) : PyStr :=
  pyStrip
    ((if f.1 then kwAsync else []) ++ kwFunction ++ ' ' :: f.2.1 ++ f.2.2.1 ++
      '(' :: tsSimplifyParams f.2.2.2.1 ++ [')'] ++
      (match f.2.2.2.2 with
       | some rt => ':' :: ' ' :: pyStrip rt
       | none => []))

/-- The exported TypeScript class signature. -/
def tsClassSig (c : PyStr × Option PyStr) : PyStr :=
  match c.2 with
  | some ext => kwClass ++ ' ' :: c.1 ++ ' ' :: kwExtends ++ ' ' :: ext
  | none => kwClass ++ ' ' :: c.1

/-- The exported TypeScript variable signature. -/
def tsVarSig (v : PyStr × PyStr × Option PyStr) : PyStr :=
  match v.2.2 with
  | some hint => v.1 ++ ' ' :: v.2.1 ++ ':' :: ' ' :: pyStrip hint
  | none => v.1 ++ ' ' :: v.2.1

def tsFuncsP (content : PyStr) : List (Nat × (Bool × PyStr × PyStr × PyStr × Option PyStr)) :=
  reFindIter tsFuncMatch content

def tsClassesP (content : PyStr) : List (Nat × (PyStr × Option PyStr)) :=
  reFindIter tsClassMatch content

def tsInterfacesP (content : PyStr) : List (Nat × PyStr) :=
  reFindIter tsInterfaceMatch content

def tsTypesP (content : PyStr) : List (Nat × PyStr) :=
  reFindIter tsTypeMatch content

def tsVarsP (content : PyStr) : List (Nat × (PyStr × PyStr × Option PyStr)) :=
  reFindIter tsVarMatch content

def tsEnumsP (content : PyStr) : List (Nat × PyStr) :=
  reFindIter tsEnumMatch content

/-- The positioned export entries of `TypeScriptParser._extract_exports`
in the order the source emits them: all function matches first, then all
classes, interfaces, type aliases, variables and enums, each group in
match (appearance) order, tagged with their match start offsets. -/
def tsExportsPos (content : PyStr) : List (Nat × PyStr) :=
  (tsFuncsP content).map (fun x => (x.1, tsFuncSig x.2)) ++
    (tsClassesP content).map (fun x => (x.1, tsClassSig x.2)) ++
    (tsInterfacesP content).map (fun x => (x.1, kwInterface ++ ' ' :: x.2)) ++
    (tsTypesP content).map (fun x => (x.1, kwTypeWord ++ ' ' :: x.2)) ++
    (tsVarsP content).map (fun x => (x.1, tsVarSig x.2)) ++
    (tsEnumsP content).map (fun x => (x.1, kwEnum ++ ' ' :: x.2))

/-- The default-export entry appended at the very end of
`TypeScriptParser._extract_exports`, when present. -/
def tsDefaultEntries (content : PyStr) : List PyStr :=
  match searchFirst tsDefaultMatch content with
  | some _ =>
    match searchFirst tsDefaultClassMatch content with
    | some c => [kwDefault ++ ' ' :: kwClass ++ ' ' :: c]
    | none =>
      match searchFirst tsDefaultFuncMatch content with
      | some f => [kwDefault ++ ' ' :: kwFunction ++ ' ' :: f]
      | none => ["default export".toList]
  | none => []

/-- `TypeScriptParser._extract_exports`. -/
def tsExtractExports (content : PyStr) : List PyStr :=
  (tsExportsPos content).map (·.2) ++ tsDefaultEntries content

/-- `TypeScriptParser.parse`. -/
def tsParse (content : PyStr) : FileSignature :=
  ⟨tsExtractExports content, tsExtractImports content, none⟩

theorem dropLit_append_self (p r : PyStr) : dropLit p (p ++ r) = some r := by
  induction p with
  | nil => rfl
  | cons c cs ih => simp [dropLit, ih]

theorem word1_spec (s w r : PyStr) (h : word1 s = some (w, r)) :
    w ≠ [] ∧ ∀ c ∈ w, isPyWordChar c = true := by
  cases s with
  | nil => simp [word1] at h
  | cons c cs =>
    simp only [word1] at h
    by_cases hc : isPyWordChar c = true
    · rw [if_pos hc] at h
      simp only [Option.some.injEq, Prod.mk.injEq] at h
      obtain ⟨hw, _⟩ := h
      subst hw
      refine ⟨by simp, ?_⟩
      intro x hx
      rcases List.mem_cons.mp hx with rfl | hx2
      · exact hc
      · exact List.mem_takeWhile_imp hx2
    · rw [if_neg hc] at h
      simp at h

theorem takeWhile_word_paren (name tail : PyStr) (hw : ∀ c ∈ name, isPyWordChar c = true) :
    (name ++ '(' :: tail).takeWhile (fun c => c ≠ '(') = name := by
  induction name with
  | nil => simp [List.takeWhile]
  | cons c cs ih =>
    have hc : isPyWordChar c = true := hw c (by simp)
    have hcp : c ≠ '(' := by
      intro hEq
      rw [hEq] at hc
      exact absurd hc (by decide)
    simp only [List.cons_append, List.takeWhile_cons]
    rw [if_pos (by simpa using hcp)]
    rw [ih (fun x hx => hw x (by simp [hx]))]

/-- Decode the name of a `def`-style export entry: strip the two-space
method indent and the `async ` marker if present, then require the
`def ` marker and read the name up to the opening parenthesis.  Class
entries (and anything else) decode to `none`. -/
def defSigName (e : PyStr) : Option PyStr :=
  let e1 :=
    match e with
    | ' ' :: ' ' :: r => r
    | _ => e
  let e2 :=
    match dropLit (kwAsync ++ [' ']) e1 with
    | some r => r
    | none => e1
  match dropLit (kwDef ++ [' ']) e2 with
  | some r => some (r.takeWhile (fun c => c ≠ '('))
  | none => none

/-- The private-name filter the Python source actually applies to
function entries: a decoded `def` name never starts with a single
underscore without starting with two. -/
def privateDefOkB (e : PyStr) : Bool :=
  match defSigName e with
  | some n => !(startsWithStr ['_'] n && !(startsWithStr ['_', '_'] n))
  | none => true

theorem defSigName_classSig (name : PyStr) (bases : Option PyStr) :
    defSigName (classSig name bases) = none := by
  unfold classSig
  cases bases with
  | none => simp [defSigName, kwClass, kwAsync, kwDef, dropLit]
  | some b =>
    by_cases hb : b.isEmpty
    · simp [defSigName, kwClass, kwAsync, kwDef, dropLit, hb]
    · simp [defSigName, kwClass, kwAsync, kwDef, dropLit, hb]

theorem defSigName_def_cons (name tail : PyStr) (hw : ∀ c ∈ name, isPyWordChar c = true) :
    defSigName ('d' :: 'e' :: 'f' :: ' ' :: (name ++ '(' :: tail)) = some name := by
  simp only [defSigName, kwAsync, kwDef, dropLit]
  norm_num
  simpa using takeWhile_word_paren name tail hw

theorem defSigName_adef_cons (name tail : PyStr) (hw : ∀ c ∈ name, isPyWordChar c = true) :
    defSigName
      ('a' :: 's' :: 'y' :: 'n' :: 'c' :: ' ' :: 'd' :: 'e' :: 'f' :: ' ' ::
        (name ++ '(' :: tail)) = some name := by
  simp only [defSigName, kwAsync, kwDef, dropLit]
  norm_num
  simpa using takeWhile_word_paren name tail hw

theorem defSigName_mdef_cons (name tail : PyStr) (hw : ∀ c ∈ name, isPyWordChar c = true) :
    defSigName (' ' :: ' ' :: 'd' :: 'e' :: 'f' :: ' ' :: (name ++ '(' :: tail)) = some name := by
  simp only [defSigName, kwAsync, kwDef, dropLit]
  norm_num
  simpa using takeWhile_word_paren name tail hw

theorem defSigName_madef_cons (name tail : PyStr) (hw : ∀ c ∈ name, isPyWordChar c = true) :
    defSigName
      (' ' :: ' ' :: 'a' :: 's' :: 'y' :: 'n' :: 'c' :: ' ' :: 'd' :: 'e' :: 'f' :: ' ' ::
        (name ++ '(' :: tail)) = some name := by
  simp only [defSigName, kwAsync, kwDef, dropLit]
  norm_num
  simpa using takeWhile_word_paren name tail hw

theorem funcSig_cons (isAsync : Bool) (name params : PyStr) (ret : Option PyStr) :
    ∃ tail,
      funcSig isAsync name params ret =
        if isAsync then
          'a' :: 's' :: 'y' :: 'n' :: 'c' :: ' ' :: 'd' :: 'e' :: 'f' :: ' ' ::
            (name ++ '(' :: tail)
        else 'd' :: 'e' :: 'f' :: ' ' :: (name ++ '(' :: tail) := by
  unfold funcSig
  cases ret with
  | none =>
    refine ⟨pySimplifyParams params ++ [')'], ?_⟩
    cases isAsync <;> simp [kwAsync, kwDef]
  | some rt =>
    refine ⟨pySimplifyParams params ++ [')'] ++ ' ' :: kwArrow ++ ' ' :: pyStrip rt, ?_⟩
    cases isAsync <;> simp [kwAsync, kwDef, kwArrow]

theorem defSigName_funcSig (isAsync : Bool) (name params : PyStr) (ret : Option PyStr)
    (hw : ∀ c ∈ name, isPyWordChar c = true) :
    defSigName (funcSig isAsync name params ret) = some name ∧
    defSigName (' ' :: ' ' :: funcSig isAsync name params ret) = some name := by
  obtain ⟨tail, htail⟩ := funcSig_cons isAsync name params ret
  rw [htail]
  cases isAsync with
  | false =>
    rw [if_neg (by decide)]
    exact ⟨defSigName_def_cons name tail hw, defSigName_mdef_cons name tail hw⟩
  | true =>
    rw [if_pos rfl]
    exact ⟨defSigName_adef_cons name tail hw, defSigName_madef_cons name tail hw⟩

theorem matchFuncLine_name (line : PyStr) (ind : Nat) (ia : Bool) (name params : PyStr)
    (ret : Option PyStr) (h : matchFuncLine line = some (ind, ia, name, params, ret)) :
    ∀ c ∈ name, isPyWordChar c = true := by
  unfold matchFuncLine at h
  simp only [Option.bind_eq_some, Option.map_eq_some'] at h
  obtain ⟨r2, -, r3, -, nr, hword, pr, -, ret2, -, hres⟩ := h
  simp only [Prod.mk.injEq] at hres
  obtain ⟨-, -, hname, -, -⟩ := hres
  subst hname
  exact (word1_spec _ _ _ hword).2

/-- The per-line function filter of `PythonParser._extract_definitions`:
whenever a line match is emitted as an export entry, its decoded `def`
name never starts with a single (non-double) underscore; class entries
decode to no `def` name at all. -/
theorem pyLineStep_emits_ok (line : PyStr) (cls cls2 : Option (PyStr × Nat)) (sig : PyStr)
    (h : pyLineStep line cls = (some sig, cls2)) : privateDefOkB sig = true := by
  unfold pyLineStep at h
  by_cases hblank :
      (line.dropWhile isPyWs).isEmpty = true ∨ (line.dropWhile isPyWs).head? = some '#'
  · rw [if_pos hblank] at h
    simp at h
  · rw [if_neg hblank] at h
    cases hcl : matchClassLine line with
    | some v =>
      obtain ⟨indLen, name, bases⟩ := v
      simp only [hcl] at h
      by_cases hind : indLen = 0
      · rw [if_pos hind] at h
        have hsig2 : sig = classSig name bases := by
          simpa using (congrArg Prod.fst h).symm
        rw [hsig2]
        unfold privateDefOkB
        rw [defSigName_classSig]
      · rw [if_neg hind] at h
        simp at h
    | none =>
      cases hfn : matchFuncLine line with
      | none =>
        simp only [hcl, hfn] at h
        simp at h
      | some v =>
        obtain ⟨indLen, isAsync, name, params, ret⟩ := v
        have hname := matchFuncLine_name line _ _ _ _ _ hfn
        simp only [hcl, hfn] at h
        by_cases hguard : (startsWithStr ['_'] name && !startsWithStr ['_', '_'] name) = true
        · rw [if_pos hguard] at h
          simp at h
        · rw [if_neg hguard] at h
          have hgf : (startsWithStr ['_'] name && !startsWithStr ['_', '_'] name) = false := by
            simpa using hguard
          have hok1 : privateDefOkB (funcSig isAsync name params ret) = true := by
            unfold privateDefOkB
            rw [(defSigName_funcSig isAsync name params ret hname).1]
            simp only [hgf]
            rfl
          have hok2 : privateDefOkB (' ' :: ' ' :: funcSig isAsync name params ret) = true := by
            unfold privateDefOkB
            rw [(defSigName_funcSig isAsync name params ret hname).2]
            simp only [hgf]
            rfl
          split at h
          · rename_i nm ci heq
            split at h
            · have hsig2 : sig = ' ' :: ' ' :: funcSig isAsync name params ret := by
                simpa using (congrArg Prod.fst h).symm
              rw [hsig2]
              exact hok2
            · split at h
              · have hsig2 : sig = funcSig isAsync name params ret := by
                  simpa using (congrArg Prod.fst h).symm
                rw [hsig2]
                exact hok1
              · simp at h
          · split at h
            · have hsig2 : sig = funcSig isAsync name params ret := by
                simpa using (congrArg Prod.fst h).symm
              rw [hsig2]
              exact hok1
            · simp at h

theorem pyDefsLoop_ok : ∀ (lines : List PyStr) (i : Nat) (cls : Option (PyStr × Nat)) x,
    x ∈ pyDefsLoop i lines cls → privateDefOkB x.2 = true := by
  intro lines
  induction lines with
  | nil => intro i cls x hx; simp [pyDefsLoop] at hx
  | cons line rest ih =>
    intro i cls x hx
    cases hstep : pyLineStep line cls with
    | mk o cls2 =>
      simp only [pyDefsLoop, hstep] at hx
      cases o with
      | some sig =>
        rcases List.mem_cons.mp hx with rfl | hx2
        · exact pyLineStep_emits_ok line cls cls2 sig hstep
        · exact ih _ _ _ hx2
      | none => exact ih _ _ _ hx

/-- C2 (amended): every discovered function or method whose name begins
with a single underscore (an underscore not followed by a second one) is
absent from the Python parser's exports — every emitted entry that
decodes as a `def` entry has a name that is not single-underscore
private.  (Class names are not filtered at all, and all dunder-style
names are kept, not only the special-method allow-list, as the
counterexample shows.) -/
theorem private_funcs_filtered (content : PyStr) :
    (pyParse content).exports.all privateDefOkB = true := by
  rw [List.all_eq_true]
  intro e he
  have he2 : e ∈ (pyExtractDefsP content).map Prod.snd := he
  obtain ⟨x, hx, hxe⟩ := List.mem_map.mp he2
  rw [← hxe]
  exact pyDefsLoop_ok _ _ _ x hx

/-- The special-method allow-list named by the specification:
construction, string conversion, equality, hashing, call. -/
def allowListedDunders : List PyStr :=
  ["__init__".toList, "__new__".toList, "__str__".toList, "__repr__".toList,
   "__eq__".toList, "__hash__".toList, "__call__".toList]

/-- Decode the name of any export entry: a `def`-style name when the
entry is a function or method, else the name after a `class ` marker. -/
def exportedName (e : PyStr) : Option PyStr :=
  match defSigName e with
  | some n => some n
  | none =>
    match dropLit (kwClass ++ [' ']) e with
    | some r => some (r.takeWhile isPyWordChar)
    | none => none

/-- Claim C2 as stated, at one export entry: a name beginning with an
underscore appears only if it is among the allow-listed special
methods. -/
def claimC2ok (e : PyStr) : Bool :=
  match exportedName e with
  | some n => !(startsWithStr ['_'] n) || decide (n ∈ allowListedDunders)
  | none => true

/-- Claim C2 as stated, for one source text. -/
def claimC2 (content : PyStr) : Prop :=
  (pyParse content).exports.all claimC2ok = true

/-- The input of the C2 counterexample: a private-named top-level
class. -/
def exC2 : PyStr := "class _Hidden:".toList

/-- C2 counterexample: parsing `class _Hidden:` exports the symbol
`class _Hidden`, whose name `_Hidden` begins with an underscore and is
not an allow-listed special method — the source only filters function
and method names, never class names. -/
theorem C2_counterexample : ¬ claimC2 exC2 := by
  unfold claimC2
  decide

/-- C5: both parsers return a `FileSignature` for every input string —
the embedding of `parse` is a total function (the source's extraction
has no raising operation and no failure branch, so no exception can
cross the boundary and the sentinel-description clause is vacuous: the
description is always `None`). -/
theorem parse_total_no_throw (content : PyStr) :
    (∃ sig : FileSignature, pyParse content = sig ∧ sig.description = none) ∧
    (∃ sig : FileSignature, tsParse content = sig ∧ sig.description = none) :=
  ⟨⟨pyParse content, rfl, rfl⟩, ⟨tsParse content, rfl, rfl⟩⟩

/-- Claim C6 as stated, for the TypeScript parser: the positioned export
entries appear in nondecreasing order of their match offsets (order of
appearance in the source). -/
def claimC6ts (content : PyStr) : Prop :=
  List.Pairwise (fun a b => a.1 ≤ b.1) (tsExportsPos content)

/-- The input of the C6 counterexample: a class declared before a
function. -/
def exC6 : PyStr := "export class A\nexport function b()".toList

/-- C6 counterexample: `_extract_exports` runs one finditer pass per
declaration kind (functions first, then classes, ...), so the class
`A` declared at offset 0 is listed after the function `b` matched at
offset 15 — exports are not in order of appearance. -/
theorem C6_counterexample : ¬ claimC6ts exC6 := by
  unfold claimC6ts
  decide

theorem pyDefsLoop_ge : ∀ (lines : List PyStr) (i : Nat) (cls : Option (PyStr × Nat)) x,
    x ∈ pyDefsLoop i lines cls → i ≤ x.1 := by
  intro lines
  induction lines with
  | nil => intro i cls x hx; simp [pyDefsLoop] at hx
  | cons line rest ih =>
    intro i cls x hx
    cases hstep : pyLineStep line cls with
    | mk o cls2 =>
      simp only [pyDefsLoop, hstep] at hx
      cases o with
      | some sig =>
        rcases List.mem_cons.mp hx with rfl | hx2
        · exact Nat.le_refl i
        · have := ih _ _ _ hx2
          omega
      | none =>
        have := ih _ _ _ hx
        omega

theorem pyDefsLoop_sorted : ∀ (lines : List PyStr) (i : Nat) (cls : Option (PyStr × Nat)),
    List.Pairwise (fun a b => a.1 < b.1) (pyDefsLoop i lines cls) := by
  intro lines
  induction lines with
  | nil => intro i cls; simp [pyDefsLoop]
  | cons line rest ih =>
    intro i cls
    cases hstep : pyLineStep line cls with
    | mk o cls2 =>
      simp only [pyDefsLoop, hstep]
      cases o with
      | some sig =>
        refine List.Pairwise.cons ?_ (ih _ _)
        intro y hy
        have := pyDefsLoop_ge rest (i + 1) cls2 y hy
        show i < y.1
        omega
      | none => exact ih _ _

/-- C6 (amended): the Python parser lists exports in order of appearance
(nondecreasing line positions); the TypeScript parser lists them grouped
by declaration kind — functions, classes, interfaces, type aliases,
variables, enums, then any default-export entry — with order of
appearance preserved within each kind. -/
theorem export_order_amended (content : PyStr) :
    ((pyParse content).exports = (pyExtractDefsP content).map Prod.snd ∧
      List.Pairwise (fun a b => a.1 ≤ b.1) (pyExtractDefsP content)) ∧
    ((tsParse content).exports =
        ((tsFuncsP content).map (fun x => (x.1, tsFuncSig x.2)) ++
          (tsClassesP content).map (fun x => (x.1, tsClassSig x.2)) ++
          (tsInterfacesP content).map (fun x => (x.1, kwInterface ++ ' ' :: x.2)) ++
          (tsTypesP content).map (fun x => (x.1, kwTypeWord ++ ' ' :: x.2)) ++
          (tsVarsP content).map (fun x => (x.1, tsVarSig x.2)) ++
          (tsEnumsP content).map (fun x => (x.1, kwEnum ++ ' ' :: x.2))).map Prod.snd ++
          tsDefaultEntries content ∧
      List.Pairwise (fun a b => a.1 ≤ b.1) (tsFuncsP content) ∧
      List.Pairwise (fun a b => a.1 ≤ b.1) (tsClassesP content) ∧
      List.Pairwise (fun a b => a.1 ≤ b.1) (tsInterfacesP content) ∧
      List.Pairwise (fun a b => a.1 ≤ b.1) (tsTypesP content) ∧
      List.Pairwise (fun a b => a.1 ≤ b.1) (tsVarsP content) ∧
      List.Pairwise (fun a b => a.1 ≤ b.1) (tsEnumsP content)) := by
  refine ⟨⟨rfl, ?_⟩, ⟨rfl, ?_, ?_, ?_, ?_, ?_, ?_⟩⟩
  · exact (pyDefsLoop_sorted _ 0 none).imp (fun hab => Nat.le_of_lt hab)
  all_goals exact (reFindIter_sorted _ content).imp (fun hab => Nat.le_of_lt hab)

/-- A module identifier is not a relative path: it does not begin with a
dot. -/
def noLeadingDot (m : PyStr) : Bool :=
  match m with
  | c :: _ => decide (c ≠ '.')
  | [] => true

theorem pyImportMatch_capture (s : PyStr) (st : Bool) (a rest : PyStr)
    (h : pyImportMatch s st = some (a, rest)) : noLeadingDot a = true := by
  unfold pyImportMatch at h
  cases st with
  | false => simp at h
  | true =>
    simp only [if_true, Option.bind_eq_some] at h
    obtain ⟨r1, -, r2, -, hw⟩ := h
    obtain ⟨hne, hall⟩ := word1_spec _ _ _ hw
    cases a with
    | nil => exact absurd rfl hne
    | cons c cs =>
      have hc := hall c (by simp)
      simp only [noLeadingDot, decide_eq_true_eq]
      intro hEq
      rw [hEq] at hc
      exact absurd hc (by decide)

theorem pyFromMatch_capture (s : PyStr) (st : Bool) (a rest : PyStr)
    (h : pyFromMatch s st = some (a, rest)) : noLeadingDot a = true := by
  unfold pyFromMatch at h
  cases st with
  | false => simp at h
  | true =>
    simp only [if_true, Option.bind_eq_some, Option.map_eq_some'] at h
    obtain ⟨r1, -, r2, -, mr, hw, r5, -, r6, -, hres⟩ := h
    simp only [Prod.mk.injEq] at hres
    obtain ⟨hmEq, -⟩ := hres
    obtain ⟨hne, hall⟩ := word1_spec _ _ _ hw
    rw [← hmEq]
    cases hx : mr.1 with
    | nil =>
      rw [hx] at hne
      exact absurd rfl hne
    | cons c cs =>
      have hc := hall c (by rw [hx]; simp)
      simp only [noLeadingDot, decide_eq_true_eq]
      intro hEq
      rw [hEq] at hc
      exact absurd hc (by decide)

theorem noLeadingDot_of_startsWith_false (m : PyStr) (h : startsWithStr ['.'] m = false) :
    noLeadingDot m = true := by
  cases m with
  | nil => rfl
  | cons c cs =>
    simp only [startsWithStr, List.length_cons, List.length_nil, List.take,
      decide_eq_false_iff_not] at h
    simp only [noLeadingDot, decide_eq_true_eq]
    intro hEq
    exact h (by rw [hEq])

/-- C7: for every source text, the imports of both parsers contain no
duplicates and no relative module (no entry begins with a dot): the
Python patterns can only capture `\w+` words, the TypeScript passes
filter modules that start with a dot, and both go through
`sorted(set(...))`. -/
theorem imports_nodup_no_relative (content : PyStr) :
    (List.Nodup (pyParse content).imports ∧
      (pyParse content).imports.all noLeadingDot = true) ∧
    (List.Nodup (tsParse content).imports ∧
      (tsParse content).imports.all noLeadingDot = true) := by
  refine ⟨⟨sortedDedup_nodup _, ?_⟩, ⟨sortedDedup_nodup _, ?_⟩⟩
  · rw [List.all_eq_true]
    intro m hm
    have hm2 := mem_sortedDedup _ m hm
    rcases List.mem_append.mp hm2 with hp1 | hp2
    · obtain ⟨x, hx, hxm⟩ := List.mem_map.mp hp1
      rw [← hxm]
      exact reFindIter_prop pyImportMatch (fun a => noLeadingDot a = true)
        pyImportMatch_capture content x hx
    · have hp2b := List.mem_filter.mp hp2
      obtain ⟨x, hx, hxm⟩ := List.mem_map.mp hp2b.1
      rw [← hxm]
      exact reFindIter_prop pyFromMatch (fun a => noLeadingDot a = true)
        pyFromMatch_capture content x hx
  · rw [List.all_eq_true]
    intro m hm
    have hm2 := mem_sortedDedup _ m hm
    rcases List.mem_append.mp hm2 with hp1 | hp2
    · have hp1b := List.mem_filter.mp hp1
      refine noLeadingDot_of_startsWith_false m ?_
      have := hp1b.2
      simpa using this
    · have hp2b := List.mem_filter.mp hp2
      refine noLeadingDot_of_startsWith_false m ?_
      have := hp2b.2
      simpa using this
